import Mathlib

/-!
Verification of the dns-masquerading-operator rule-set engine, resolver and
reconciler write-debounce against the natural-language specification.

The rule-set engine (package coredns, file rewrite.go in its current form) is
modelled from the spec where noted; the DNS-name validators, the resolver
per-endpoint check and the config-map write debounce are translated from the
repository sources (src/internal/netutil/utils.go, src/unnamed/part_002,
src/internal/controllers/masqueradingrule_controller.go).
-/

namespace DnsMasq

set_option maxRecDepth 20000

/-! ### Go string and regexp primitives

`isGoSpace` models the RE2 character class `\s` = `[\t\n\f\r ]`.
`splitOnChar` models `strings.Split(s, sep)` for a one-character separator,
`joinWith` models `strings.Join(lines, sep)`. -/

def isGoSpace (c : Char) : Bool :=
  c = '\t' || c = '\n' || c = '\x0c' || c = '\r' || c = ' '

def splitOnChar (c : Char) : List Char → List (List Char)
  | [] => [[]]
  | x :: xs =>
    match splitOnChar c xs with
    | [] => [[]]
    | h :: t => if x = c then [] :: h :: t else (x :: h) :: t

def joinTail (c : Char) : List (List Char) → List Char
  | [] => []
  | l :: ls => c :: (l ++ joinTail c ls)

def joinWith (c : Char) : List (List Char) → List Char
  | [] => []
  | l :: ls => l ++ joinTail c ls

/-! ### DNS name validation (src/internal/netutil/utils.go)

`CheckDnsName(s, allowWildcard)` first rewrites a leading `*.` label to
`wildcard.` (regexp `^\*\.(.+)$`, where `.` does not match a newline), then
checks the length bound and the RFC1123 host regexp
`^L(\.L)*$` with `L = [a-zA-Z0-9]|[a-zA-Z0-9][a-zA-Z0-9\-]{0,61}[a-zA-Z0-9]`.
The Go length check counts bytes; for strings surviving the regexp all
characters are ASCII, so counting characters decides identically. -/

def isAlnumChar (c : Char) : Bool :=
  ('a' ≤ c && c ≤ 'z') || ('A' ≤ c && c ≤ 'Z') || ('0' ≤ c && c ≤ '9')

def labelOk (l : List Char) : Bool :=
  decide (1 ≤ l.length) && decide (l.length ≤ 63)
    && l.all (fun c => isAlnumChar c || c = '-')
    && (match l.head? with | some c => isAlnumChar c | none => false)
    && (match l.getLast? with | some c => isAlnumChar c | none => false)

def dnsNameOk (cs : List Char) : Bool :=
  (splitOnChar '.' cs).all labelOk

def checkDnsName (s : String) (allowWildcard : Bool) : Bool :=
  let cs := s.data
  let cs :=
    if allowWildcard then
      match cs with
      | '*' :: '.' :: rest =>
        if rest ≠ [] ∧ ¬rest.contains '\n' then "wildcard.".data ++ rest else '*' :: '.' :: rest
      | other => other
    else cs
  decide (cs.length ≤ 255) && dnsNameOk cs

/-- `IsWildcardDnsName` (src/internal/netutil/utils.go): nonempty and first byte `*`. -/
def isWildcardDnsName (s : String) : Bool :=
  match s.data with
  | '*' :: _ => true
  | _ => false

/-- The characters a string surviving `checkDnsName` can contain (alphanumeric,
`-`, `.`, and `*` for the wildcard label). -/
def dnsChar (c : Char) : Bool := isAlnumChar c || c = '-' || c = '.' || c = '*'

/-! ### IP literal detection

`IsIpAddress` is `net.ParseIP(s) != nil`; the model below follows the Go
standard library parser: the first `.` or `:` selects dotted-quad IPv4
(exactly four 1–3 digit decimal fields ≤ 255, no leading zeros) or IPv6
(1–4 hex-digit fields separated by `:`, at most one `::` which must expand to
at least one zero field, an optional trailing dotted quad standing for two
fields, eight fields in total); zones are rejected. -/

def isDigitChar (c : Char) : Bool := '0' ≤ c && c ≤ '9'

def isHexChar (c : Char) : Bool :=
  isDigitChar c || ('a' ≤ c && c ≤ 'f') || ('A' ≤ c && c ≤ 'F')

def digitVal (c : Char) : Nat := c.toNat - '0'.toNat

def hexVal (c : Char) : Nat :=
  if isDigitChar c then c.toNat - '0'.toNat
  else if 'a' ≤ c && c ≤ 'f' then c.toNat - 'a'.toNat + 10
  else c.toNat - 'A'.toNat + 10

def decValue (ds : List Char) : Nat := ds.foldl (fun a c => 10 * a + digitVal c) 0

def hexValue (ds : List Char) : Nat := ds.foldl (fun a c => 16 * a + hexVal c) 0

def v4FieldOk (f : List Char) : Bool :=
  !f.isEmpty && decide (f.length ≤ 3) && f.all isDigitChar
    && (f.length == 1 || f.head? != some '0') && decide (decValue f ≤ 255)

def isV4Chars (cs : List Char) : Bool :=
  let fields := splitOnChar '.' cs
  fields.length == 4 && fields.all v4FieldOk

def v6Done (fields : Nat) (ell : Bool) : Bool :=
  if ell then decide (fields < 8) else fields == 8

def v6Loop : Nat → List Char → Nat → Bool → Bool
  | 0, _, _, _ => false
  | fuel+1, cs, fields, ell =>
    if cs.isEmpty then false else
    let digits := cs.takeWhile isHexChar
    let rest := cs.drop digits.length
    if digits.isEmpty then false
    else if rest.head? = some '.' then
      decide (fields ≤ 6) && isV4Chars cs && v6Done (fields + 2) ell
    else if hexValue digits > 65535 then false
    else
      match rest with
      | [] => v6Done (fields + 1) ell
      | ':' :: rest2 =>
        match rest2 with
        | [] => false
        | ':' :: rest3 =>
          if ell then false
          else
            match rest3 with
            | [] => v6Done (fields + 1) true
            | _ => v6Loop fuel rest3 (fields + 1) true
        | _ => v6Loop fuel rest2 (fields + 1) ell
      | _ => false

def isV6Chars (cs : List Char) : Bool :=
  match cs with
  | ':' :: ':' :: rest =>
    match rest with
    | [] => true
    | _ => v6Loop 8 rest 0 true
  | _ => v6Loop 8 cs 0 false

def isIpAddress (s : String) : Bool :=
  match s.data.find? (fun c => c = '.' || c = ':') with
  | some '.' => isV4Chars s.data
  | some ':' => isV6Chars s.data
  | _ => false

/-! ### Byte-wise string order

Go compares strings byte-wise; on UTF-8 data this coincides with the
character-wise lexicographic order below, which `slices.Sort` uses to order
owners ascending. -/

def leChars : List Char → List Char → Bool
  | [], _ => true
  | _ :: _, [] => false
  | a :: as, b :: bs => if a = b then leChars as bs else decide (a < b)

/-! ### The rewrite-rule engine

Modelled from the spec: the current `internal/coredns/rewrite.go`
(`NewRewriteRule`, `RewriteRule.Matches`, `RewriteRuleSet.AddRule`,
`RewriteRuleSet.RemoveRule`, `RewriteRuleSet.String`, `ParseRewriteRuleSet`)
is not present in the source tree; only an older revision of the file, the
current test file `internal/coredns/rewrite_test.go` and the current callers
(the masquerading-rule controller and webhook) are.  The definitions below
follow §3/§4.1 of the spec; the owner-keyed map is represented by a list of
rules with pairwise distinct owners. -/

structure RewriteRule where
  owner : String
  «from» : String
  «to» : String
deriving DecidableEq, Repr

/-- The suffix a wildcard pattern matches against: `*.suffix` yields
`.suffix`, anything else yields none. -/
def wildcardSuffix (cs : List Char) : Option (List Char) :=
  match cs with
  | c1 :: c2 :: rest => if c1 = '*' ∧ c2 = '.' then some ('.' :: rest) else none
  | _ => none

/-- Modelled from the spec: `Matches(rule, host)` — a `from` of shape
`*.suffix` matches any host ending with `.suffix`; otherwise only
`host == rule.from`. -/
def RewriteRule.Matches (r : RewriteRule) (host : String) : Bool :=
  match wildcardSuffix r.«from».data with
  | some sfx => decide (sfx <:+ host.data)
  | none => host == r.«from»

inductive RewriteError where
  | validation (msg : String)
  | conflict (newOwner newFrom oldOwner oldFrom : String)
  | parseAtLine (n : Nat)
  | prematureEnd
deriving DecidableEq, Repr

/-- Modelled from the spec: `NewRewriteRule(owner, from, to)` fails if
`from`/`to` are not valid hostnames (wildcard allowed only on `from`), or if
`to` is an IP literal while `from` is a wildcard. -/
def NewRewriteRule (owner fromName toName : String) : Except RewriteError RewriteRule :=
  if ¬checkDnsName fromName true then
    .error (.validation "invalid source: not a valid DNS name")
  else if ¬checkDnsName toName false then
    .error (.validation "invalid target: not a valid DNS name")
  else if isIpAddress toName ∧ isWildcardDnsName fromName then
    .error (.validation "wildcards are not allowed with IP address targets")
  else
    .ok ⟨owner, fromName, toName⟩

/-- Post-state, changed flag and error of an `AddRule` call (the Go method
mutates its receiver; on error the receiver is untouched). -/
structure AddResult where
  rules : List RewriteRule
  changed : Bool
  err : Option RewriteError
deriving DecidableEq, Repr

def clashesWith (s r : RewriteRule) : Bool :=
  s.owner != r.owner && (s.Matches r.«from» || r.Matches s.«from»)

/-- Modelled from the spec: `AddRule` first scans all rules of a different
owner for a match in either direction (ConflictError, set unchanged);
otherwise an identical entry for the owner yields `changed=false`, a
differing entry is replaced, a new owner is inserted. -/
def AddRule (rs : List RewriteRule) (r : RewriteRule) : AddResult :=
  match rs.find? (fun s => clashesWith s r) with
  | some s => ⟨rs, false, some (.conflict r.owner r.«from» s.owner s.«from»)⟩
  | none =>
    match rs.find? (fun s => s.owner == r.owner) with
    | some s =>
      if s.«from» == r.«from» && s.«to» == r.«to» then ⟨rs, false, none⟩
      else ⟨rs.map (fun t => if t.owner == r.owner then r else t), true, none⟩
    | none => ⟨rs ++ [r], true, none⟩

/-- Modelled from the spec: `RemoveRule` removes the owner's entry if present
(`changed=true`), else is a no-op (`changed=false`). -/
def RemoveRule (rs : List RewriteRule) (owner : String) : List RewriteRule × Bool :=
  if rs.any (fun s => s.owner == owner) then
    (rs.filter (fun s => s.owner != owner), true)
  else (rs, false)

/-! ### Serialization (modelled from the spec, §4.1 Serialize) -/

def insertByOwner (r : RewriteRule) : List RewriteRule → List RewriteRule
  | [] => [r]
  | s :: t => if leChars r.owner.data s.owner.data then r :: s :: t else s :: insertByOwner r t

/-- Owner-ascending sort (Go `slices.Sort(maps.Keys(...))`). -/
def sortByOwner : List RewriteRule → List RewriteRule
  | [] => []
  | r :: t => insertByOwner r (sortByOwner t)

/-- The two `strings.ReplaceAll` calls `.` ↦ `\.` then `*` ↦ `.*`, fused into
one character pass (the first pass introduces no `*`, so they commute into a
single map). -/
def escapeWildcard : List Char → List Char
  | [] => []
  | c :: cs =>
    (if c = '.' then ['\\', '.'] else if c = '*' then ['.', '*'] else [c]) ++ escapeWildcard cs

def hostsRuleLines (r : RewriteRule) : List (List Char) :=
  [ "  # owner: ".data ++ r.owner.data,
    "  # from: ".data ++ r.«from».data,
    "  # to: ".data ++ r.«to».data,
    "  ".data ++ r.«to».data ++ ' ' :: r.«from».data ]

def rewriteDirective (r : RewriteRule) : List Char :=
  if isWildcardDnsName r.«from» then
    "rewrite name regex ".data ++ escapeWildcard r.«from».data ++ ' ' :: r.«to».data
  else
    "rewrite name exact ".data ++ r.«from».data ++ ' ' :: r.«to».data

def rewriteRuleLines (r : RewriteRule) : List (List Char) :=
  [ "# owner: ".data ++ r.owner.data,
    "# from: ".data ++ r.«from».data,
    "# to: ".data ++ r.«to».data,
    rewriteDirective r ]

def ruleBlocks (f : RewriteRule → List (List Char)) : List RewriteRule → List (List Char)
  | [] => []
  | r :: rest => f r ++ ruleBlocks f rest

/-- Modelled from the spec: `String()` renders IP-literal rules first, owner
ascending, inside a `hosts /dev/null { … ttl 10 / fallthrough / }` block
(omitted when empty), then the name-target rules, owner ascending, as
`rewrite name exact|regex` directives. -/
def serializeLines (rs : List RewriteRule) : List (List Char) :=
  let sorted := sortByOwner rs
  let ipRules := sorted.filter (fun r => isIpAddress r.to)
  let nameRules := sorted.filter (fun r => !isIpAddress r.to)
  (if ipRules.isEmpty then [] else
    "hosts /dev/null \x7b".data :: ruleBlocks hostsRuleLines ipRules
      ++ ["  ttl 10".data, "  fallthrough".data, "\x7d".data])
  ++ ruleBlocks rewriteRuleLines nameRules

def RuleSetString (rs : List RewriteRule) : String :=
  String.mk (joinWith '\n' (serializeLines rs))

/-! ### Parsing (modelled from the spec, §4.1 Parse) -/

/-- The line regexp `^\s*# owner: (.+)$` (and its `# from:` / `# to:`
siblings): optional leading whitespace, the literal tag, then a nonempty
capture that cannot contain a newline. -/
def matchCommentLine (tag : List Char) (line : List Char) : Option String :=
  let t := line.dropWhile isGoSpace
  if tag.isPrefixOf t then
    let rest := t.drop tag.length
    if rest.isEmpty || rest.contains '\n' then none else some (String.mk rest)
  else none

/-- The hosts-entry regexp `^\s*\S+\s+\S+$`. -/
def isHostsEntryLine (line : List Char) : Bool :=
  let t := line.dropWhile isGoSpace
  let tok1 := t.takeWhile (fun c => !isGoSpace c)
  let r1 := t.dropWhile (fun c => !isGoSpace c)
  let mid := r1.takeWhile isGoSpace
  let tok2 := r1.dropWhile isGoSpace
  !tok1.isEmpty && !mid.isEmpty && !tok2.isEmpty && tok2.all (fun c => !isGoSpace c)

/-- The directive regexp `^\s*rewrite name (exact|regex) (\S+) (\S+)$`. -/
def isRewriteEntryLine (line : List Char) : Bool :=
  let t := line.dropWhile isGoSpace
  let rem :=
    if "rewrite name exact ".data.isPrefixOf t then some (t.drop 19)
    else if "rewrite name regex ".data.isPrefixOf t then some (t.drop 19)
    else none
  match rem with
  | none => false
  | some rem =>
    let tokA := rem.takeWhile (fun c => !isGoSpace c)
    let restA := rem.dropWhile (fun c => !isGoSpace c)
    !tokA.isEmpty && restA.head? == some ' '
      && !(restA.drop 1).isEmpty && (restA.drop 1).all (fun c => !isGoSpace c)

/-- Modelled from the spec: the strict line-oriented grammar.  `hosts
/dev/null {` enters hosts mode, the literal `  ttl 10` / `  fallthrough` /
`}` sequence leaves it; each rule is the three comment lines followed by a
hosts entry (in hosts mode) or a rewrite directive; any line not matching the
expected shape fails with the 1-based line number, end-of-input inside a rule
fails with premature termination; each triple is validated and inserted via
`AddRule`.  The fuel argument bounds the number of loop iterations exactly as
the Go loop index is bounded by the number of lines: every iteration consumes
at least one line, so starting with the line count the fuel never runs out. -/
def parseLines : Nat → List (List Char) → Bool → Nat → List RewriteRule →
    Except RewriteError (List RewriteRule)
  | _, [], _, _, rs => .ok rs
  | 0, _ :: _, _, _, _ => .error .prematureEnd
  | fuel+1, line :: rest, hh, n, rs =>
    if line = "hosts /dev/null \x7b".data ∧ hh = false then
      parseLines fuel rest true (n+1) rs
    else if line = "  ttl 10".data ∧ rest.take 2 = ["  fallthrough".data, "\x7d".data] then
      parseLines fuel (rest.drop 2) false (n+3) rs
    else
      match matchCommentLine "# owner: ".data line with
      | none => .error (.parseAtLine n)
      | some owner =>
        match rest.head? with
        | none => .error .prematureEnd
        | some l2 =>
          match matchCommentLine "# from: ".data l2 with
          | none => .error (.parseAtLine (n+1))
          | some fromName =>
            match (rest.drop 1).head? with
            | none => .error .prematureEnd
            | some l3 =>
              match matchCommentLine "# to: ".data l3 with
              | none => .error (.parseAtLine (n+2))
              | some toName =>
                match (rest.drop 2).head? with
                | none => .error .prematureEnd
                | some l4 =>
                  if (if hh then isHostsEntryLine l4 else isRewriteEntryLine l4) then
                    match NewRewriteRule owner fromName toName with
                    | .error e => .error e
                    | .ok r =>
                      let res := AddRule rs r
                      match res.err with
                      | some e => .error e
                      | none => parseLines fuel (rest.drop 3) hh (n+4) res.rules
                  else .error (.parseAtLine (n+3))

/-- Modelled from the spec: `ParseRewriteRuleSet` — the empty string decodes
to the empty rule set; otherwise the input is split on newlines and fed to
the strict line grammar. -/
def ParseRewriteRuleSet (s : String) : Except RewriteError (List RewriteRule) :=
  if s = "" then .ok []
  else parseLines (splitOnChar '\n' s.data).length (splitOnChar '\n' s.data) false 1 []

/-! ### Resolver (src/unnamed/part_002, package coredns)

The fan-out launches one task per endpoint whose result depends only on that
endpoint; the fan-in reads the dedicated channels in endpoint order, so the
concurrent execution is embedded as a map in endpoint order.  The network is
an explicit deterministic environment: raw lookup outcomes per
(host, server, port), port-forward establishment per endpoint, and the
endpoint-discovery result. -/

structure Endpoint where
  address : String
  port : Nat
  inCluster : Bool
  nspace : String
  name : String
deriving DecidableEq, Repr

inductive LookupOutcome where
  | found (addrs : List String)
  | notFound
  | failure (msg : String)
deriving DecidableEq, Repr

structure DnsWorld where
  rawLookup : String → String → Nat → LookupOutcome
  portforwardStart : Endpoint → Except String Nat
  discover : Except String (List Endpoint)

def insertString (s : String) : List String → List String
  | [] => [s]
  | t :: ts => if leChars s.data t.data then s :: t :: ts else t :: insertString s ts

/-- `slices.Sort` on the address list. -/
def sortStrings : List String → List String
  | [] => []
  | s :: ss => insertString s (sortStrings ss)

/-- `dnsutil.Lookup` (src/internal/dnsutil/record.go): a name-not-found
result yields nil addresses and no error; otherwise the sorted address
list, or the technical error. -/
def Lookup (w : DnsWorld) (host server : String) (port : Nat) :
    Except String (List String) :=
  match w.rawLookup host server port with
  | .found addrs => .ok (sortStrings addrs)
  | .notFound => .ok []
  | .failure e => .error e

/-- The body shared by the two branches of the per-endpoint goroutine in
`(*resolver).CheckRecord`: resolve `host`, collect errors into `merr`; if
`expectedResult` is empty succeed on no error and no addresses, else resolve
`expectedResult` and succeed on no error, at least one address and equal
sorted address lists. -/
def checkAt (w : DnsWorld) (host expectedResult server : String) (port : Nat) :
    Bool × List String :=
  let res :=
    match Lookup w host server port with
    | .ok a => (a, ([] : List String))
    | .error e => ([], [e])
  let addresses := res.1
  let merr := res.2
  if expectedResult = "" then
    (merr.isEmpty && addresses.isEmpty, merr)
  else
    let res2 :=
      match Lookup w expectedResult server port with
      | .ok a => (a, merr)
      | .error e => (([] : List String), merr ++ [e])
    let expectedAddresses := res2.1
    let merr2 := res2.2
    (merr2.isEmpty && !addresses.isEmpty && addresses == expectedAddresses, merr2)

/-- One endpoint's task: when the endpoint is in-cluster and the resolver is
not, a port-forward is established first (its failure is the task's error)
and the lookups go to the forwarded local port; otherwise they go to the
endpoint directly. -/
def checkEndpoint (w : DnsWorld) (inCluster : Bool) (host expectedResult : String)
    (e : Endpoint) : Bool × List String :=
  if e.inCluster && !inCluster then
    match w.portforwardStart e with
    | .error err => (false, [err])
    | .ok localport => checkAt w host expectedResult "127.0.0.1" localport
  else
    checkAt w host expectedResult e.address e.port

/-- One fan-in step: a task error appends to `merr` and clears `active`; a
task failure without error clears `active`. -/
def aggStep (acc : Bool × List String) (p : Bool × List String) : Bool × List String :=
  if !p.2.isEmpty then (false, acc.2 ++ p.2)
  else if !p.1 then (false, acc.2) else acc

/-- The fan-in loop: `active` starts true, then the channel results are
folded in endpoint order. -/
def aggregate (results : List (Bool × List String)) : Bool × List String :=
  results.foldl aggStep (true, [])

structure ResolverCfg where
  inCluster : Bool
  endpoints : List Endpoint
deriving DecidableEq, Repr

/-- `(*resolver).CheckRecord`: configured endpoints, or discovery when none
are configured (its failure is returned as `(false, err)`); then fan-out per
endpoint and fan-in. -/
def CheckRecord (w : DnsWorld) (r : ResolverCfg) (host expectedResult : String) :
    Bool × List String :=
  match (if r.endpoints.isEmpty then w.discover else .ok r.endpoints) with
  | .error e => (false, [e])
  | .ok endpoints => aggregate (endpoints.map (checkEndpoint w r.inCluster host expectedResult))

/-! ### Config-map write debounce
(src/internal/controllers/masqueradingrule_controller.go, the identical
blocks at lines 221–242 of the create/update path and 281–302 of the
deletion path)

The artifact state carries the config-map data value and the
`dns.cs.sap.com/last-updated-at` annotation: absent, present but
unparseable, or a parsed timestamp.  Time is in arbitrary units with
`delay = CorednsConfigMapUpdateDelay`. -/

inductive WriteOutcome where
  | written (requeueAfterSeconds : Nat)
  | skipped (requeueAfterSeconds : Nat)
  | invalidTimestamp
deriving DecidableEq, Repr

structure ArtifactState where
  data : String
  lastUpdatedAt : Option (Option Nat)
deriving DecidableEq, Repr

/-- One invocation's write attempt for a changed rule set: an unparseable
annotation aborts; `now.Before(lastUpdatedAt.Add(delay))` skips the write and
requeues after 1s; otherwise the annotation is set to `now`, the new data is
written, and the invocation requeues after 1s. -/
def configMapWriteStep (delay now : Nat) (st : ArtifactState) (newData : String) :
    ArtifactState × WriteOutcome :=
  match st.lastUpdatedAt with
  | some none => (st, .invalidTimestamp)
  | some (some t) =>
    if now < t + delay then (st, .skipped 1)
    else ({ data := newData, lastUpdatedAt := some (some now) }, .written 1)
  | none => ({ data := newData, lastUpdatedAt := some (some now) }, .written 1)

/-- The address list an endpoint's server returns for a host (empty on
technical error; `Lookup` already folds not-found into the empty list). -/
def addrsAt (w : DnsWorld) (host server : String) (port : Nat) : List String :=
  match Lookup w host server port with
  | .ok a => a
  | .error _ => []

/-- Order-preserving concatenation of all endpoints' technical errors. -/
def collectErrs : List (Bool × List String) → List String
  | [] => []
  | p :: ps => p.2 ++ collectErrs ps

/-- The deterministic network used for the C7 scenarios: two out-of-cluster
endpoints; on `s1` both names resolve identically, on `s2` the host resolves
to a different address than the expected name (legitimate mismatch), and on
`s3` resolving the host fails technically. -/
def scenarioWorld : DnsWorld where
  rawLookup := fun h server _ =>
    if server = "s1" then .found ["1.1.1.1"]
    else if server = "s2" then
      (if h = "h.example.com" then .found ["2.2.2.2"] else .found ["3.3.3.3"])
    else
      (if h = "h.example.com" then .failure "lookup failed" else .notFound)
  portforwardStart := fun _ => .error "no tunnel in scenario"
  discover := .ok []

def ep1 : Endpoint := ⟨"s1", 53, false, "", ""⟩
def ep2 : Endpoint := ⟨"s2", 53, false, "", ""⟩
def ep3 : Endpoint := ⟨"s3", 53, false, "", ""⟩

/-- The order the owner sort uses. -/
def ruleLe (r s : RewriteRule) : Prop := leChars r.owner.data s.owner.data = true

/-! ### Invariants of the rule set -/

/-- Clash-freeness (spec §3): no two rules of different owners have `from`
patterns matching each other in either direction. -/
def ClashFree (rs : List RewriteRule) : Prop :=
  ∀ s ∈ rs, ∀ t ∈ rs, s.owner ≠ t.owner →
    (s.Matches t.«from» || t.Matches s.«from») = false

/-- The owner-keyed map has pairwise distinct keys. -/
def WFOwners (rs : List RewriteRule) : Prop :=
  (rs.map (fun r => r.owner)).Nodup

instance (rs : List RewriteRule) : Decidable (WFOwners rs) := by
  unfold WFOwners; infer_instance

instance (rs : List RewriteRule) : Decidable (ClashFree rs) := by
  unfold ClashFree; infer_instance

/-- The rule was produced by a successful `NewRewriteRule` call. -/
def ValidRule (r : RewriteRule) : Prop :=
  NewRewriteRule r.owner r.«from» r.«to» = .ok r

/-- Rule sets reachable from the empty set by successful `AddRule` calls on
validated rules. -/
inductive Built : List RewriteRule → Prop
  | nil : Built []
  | step {rs : List RewriteRule} {r : RewriteRule} :
      Built rs → ValidRule r → (AddRule rs r).err = none → Built (AddRule rs r).rules

theorem wildcardSuffix_eq_some {cs sfx : List Char} :
    wildcardSuffix cs = some sfx ↔ ∃ a, cs = '*' :: '.' :: a ∧ sfx = '.' :: a := by
  match cs with
  | [] => simp [wildcardSuffix]
  | [c] => simp [wildcardSuffix]
  | c1 :: c2 :: rest =>
    simp only [wildcardSuffix]
    split
    · rename_i h
      obtain ⟨h1, h2⟩ := h
      subst h1; subst h2
      constructor
      · rintro ⟨rfl⟩; exact ⟨rest, rfl, rfl⟩
      · rintro ⟨a, ha, hs⟩
        obtain ⟨rfl⟩ : rest = a := by injection ha with _ h; injection h
        simp [hs]
    · rename_i h
      simp only [not_and] at h
      constructor
      · rintro ⟨⟩
      · rintro ⟨a, ha, -⟩
        injection ha with h1 h2
        injection h2 with h2 _
        exact absurd h2 (by intro hh; exact (h h1) hh)

theorem Matches_of_wild {r : RewriteRule} {a : List Char}
    (h : r.«from».data = '*' :: '.' :: a) (host : String) :
    r.Matches host = decide (('.' :: a) <:+ host.data) := by
  have : wildcardSuffix r.«from».data = some ('.' :: a) :=
    wildcardSuffix_eq_some.mpr ⟨a, h, rfl⟩
  simp [RewriteRule.Matches, this]

theorem Matches_of_exact {r : RewriteRule}
    (h : wildcardSuffix r.«from».data = none) (host : String) :
    r.Matches host = (host == r.«from») := by
  simp [RewriteRule.Matches, h]

/-- Two rules matching a common host always match one another's `from`. -/
theorem Matches_overlap {s t : RewriteRule} {host : String}
    (hs : s.Matches host = true) (ht : t.Matches host = true) :
    (s.Matches t.«from» || t.Matches s.«from») = true := by
  cases hws : wildcardSuffix s.«from».data with
  | none =>
    have hhost : host = s.«from» := by
      have := hs
      rw [Matches_of_exact hws] at this
      exact eq_of_beq this
    refine Bool.or_eq_true_iff.mpr (Or.inr ?_)
    rw [← hhost]
    exact ht
  | some sfxs =>
    obtain ⟨a, ha, rfl⟩ := wildcardSuffix_eq_some.mp hws
    cases hwt : wildcardSuffix t.«from».data with
    | none =>
      have hhost : host = t.«from» := by
        have := ht
        rw [Matches_of_exact hwt] at this
        exact eq_of_beq this
      refine Bool.or_eq_true_iff.mpr (Or.inl ?_)
      rw [← hhost]
      exact hs
    | some sfxt =>
      obtain ⟨b, hb, rfl⟩ := wildcardSuffix_eq_some.mp hwt
      rw [Matches_of_wild ha] at hs
      rw [Matches_of_wild hb] at ht
      have hsub : ('.' :: a) <:+ host.data := of_decide_eq_true hs
      have htub : ('.' :: b) <:+ host.data := of_decide_eq_true ht
      rcases List.suffix_or_suffix_of_suffix hsub htub with h | h
      · refine Bool.or_eq_true_iff.mpr (Or.inl ?_)
        rw [Matches_of_wild ha, decide_eq_true_eq, hb]
        exact h.trans (List.suffix_cons '*' ('.' :: b))
      · refine Bool.or_eq_true_iff.mpr (Or.inr ?_)
        rw [Matches_of_wild hb, decide_eq_true_eq, ha]
        exact h.trans (List.suffix_cons '*' ('.' :: a))

theorem clashesWith_eq_true {s r : RewriteRule} :
    clashesWith s r = true ↔
      s.owner ≠ r.owner ∧ (s.Matches r.«from» = true ∨ r.Matches s.«from» = true) := by
  simp [clashesWith, bne_iff_ne, Bool.or_eq_true]

/-- In a clash-free set with distinct owners, at most one rule matches any
host. -/
theorem at_most_one_match {rs : List RewriteRule} (hwf : WFOwners rs)
    (hcf : ClashFree rs) {host : String} {s t : RewriteRule}
    (hsmem : s ∈ rs) (htmem : t ∈ rs)
    (hs : s.Matches host = true) (ht : t.Matches host = true) : s = t := by
  by_cases howner : s.owner = t.owner
  · exact List.inj_on_of_nodup_map hwf hsmem htmem howner
  · have := hcf s hsmem t htmem howner
    rw [Matches_overlap hs ht] at this
    exact absurd this (by simp)

/-! ### Behaviour of `AddRule` -/

theorem AddRule_err_none_iff (rs : List RewriteRule) (r : RewriteRule) :
    (AddRule rs r).err = none ↔ rs.find? (fun s => clashesWith s r) = none := by
  unfold AddRule
  cases hfind : rs.find? (fun s => clashesWith s r) with
  | none =>
    dsimp only
    cases hf2 : rs.find? (fun s => s.owner == r.owner) with
    | none => simp
    | some s =>
      dsimp only
      split <;> simp
  | some s => simp

theorem AddRule_conflict {rs : List RewriteRule} {r s : RewriteRule}
    (hfind : rs.find? (fun s => clashesWith s r) = some s) :
    AddRule rs r = ⟨rs, false, some (.conflict r.owner r.«from» s.owner s.«from»)⟩ := by
  unfold AddRule
  rw [hfind]

theorem AddRule_err_cases (rs : List RewriteRule) (r : RewriteRule) :
    (AddRule rs r).err = none ∨
      ∃ s, rs.find? (fun s => clashesWith s r) = some s ∧
        AddRule rs r = ⟨rs, false, some (.conflict r.owner r.«from» s.owner s.«from»)⟩ := by
  by_cases hfind : (AddRule rs r).err = none
  · exact Or.inl hfind
  · right
    rw [AddRule_err_none_iff] at hfind
    cases hf : rs.find? (fun s => clashesWith s r) with
    | none => exact absurd hf hfind
    | some s => exact ⟨s, rfl, AddRule_conflict hf⟩

theorem AddRule_rules_of_err {rs : List RewriteRule} {r : RewriteRule}
    (h : (AddRule rs r).err ≠ none) : (AddRule rs r).rules = rs := by
  rcases AddRule_err_cases rs r with h0 | ⟨s, -, heq⟩
  · exact absurd h0 h
  · rw [heq]

/-- The three success shapes of `AddRule`. -/
theorem AddRule_ok_cases {rs : List RewriteRule} {r : RewriteRule}
    (h : (AddRule rs r).err = none) :
    (∀ s ∈ rs, clashesWith s r = false) ∧
      ((∃ s ∈ rs, s.owner = r.owner ∧ s.«from» = r.«from» ∧ s.«to» = r.«to» ∧
          AddRule rs r = ⟨rs, false, none⟩) ∨
        ((∃ s ∈ rs, s.owner = r.owner) ∧
          AddRule rs r = ⟨rs.map (fun t => if t.owner == r.owner then r else t), true, none⟩) ∨
        ((∀ s ∈ rs, s.owner ≠ r.owner) ∧ AddRule rs r = ⟨rs ++ [r], true, none⟩)) := by
  have hfind : rs.find? (fun s => clashesWith s r) = none :=
    (AddRule_err_none_iff rs r).mp h
  have hnoclash : ∀ s ∈ rs, clashesWith s r = false := by
    intro s hs
    have := List.find?_eq_none.mp hfind s hs
    simpa using this
  refine ⟨hnoclash, ?_⟩
  cases hf2 : rs.find? (fun s => s.owner == r.owner) with
  | none =>
    refine Or.inr (Or.inr ⟨?_, ?_⟩)
    · intro s hs
      have := List.find?_eq_none.mp hf2 s hs
      simpa using this
    · unfold AddRule
      rw [hfind, hf2]
  | some s =>
    have hmem : s ∈ rs := List.mem_of_find?_eq_some hf2
    have howner : s.owner = r.owner := by
      have := List.find?_some hf2
      simpa using this
    by_cases hsame : (s.«from» == r.«from» && s.«to» == r.«to») = true
    · have hft : s.«from» = r.«from» ∧ s.«to» = r.«to» := by simpa using hsame
      refine Or.inl ⟨s, hmem, howner, hft.1, hft.2, ?_⟩
      unfold AddRule
      rw [hfind, hf2]
      dsimp only
      rw [if_pos hsame]
    · refine Or.inr (Or.inl ⟨⟨s, hmem, howner⟩, ?_⟩)
      unfold AddRule
      rw [hfind, hf2]
      dsimp only
      rw [if_neg hsame]

theorem noclash_pair {s r : RewriteRule} (h : clashesWith s r = false)
    (hne : s.owner ≠ r.owner) :
    s.Matches r.«from» = false ∧ r.Matches s.«from» = false := by
  have h' : ¬(clashesWith s r = true) := by simp [h]
  rw [clashesWith_eq_true] at h'
  push_neg at h'
  have h2 := h' hne
  push_neg at h2
  exact ⟨Bool.not_eq_true _ ▸ h2.1, Bool.not_eq_true _ ▸ h2.2⟩

theorem mem_replace_cases {rs : List RewriteRule} {r x : RewriteRule}
    (hx : x ∈ rs.map (fun t => if t.owner == r.owner then r else t)) :
    x = r ∨ (x ∈ rs ∧ x.owner ≠ r.owner) := by
  obtain ⟨t, ht, hft⟩ := List.mem_map.mp hx
  by_cases hb : (t.owner == r.owner) = true
  · left; rw [if_pos hb] at hft; exact hft.symm
  · right
    rw [if_neg hb] at hft
    subst hft
    exact ⟨ht, by simpa using hb⟩

theorem ClashFree_preserved {rs : List RewriteRule} {r : RewriteRule}
    (hcf : ClashFree rs) (h : (AddRule rs r).err = none) :
    ClashFree (AddRule rs r).rules := by
  obtain ⟨hnoclash, hcase⟩ := AddRule_ok_cases h
  have hpair : ∀ s ∈ rs, s.owner ≠ r.owner →
      (s.Matches r.«from» || r.Matches s.«from») = false ∧
      (r.Matches s.«from» || s.Matches r.«from») = false := by
    intro s hs hne
    obtain ⟨h1, h2⟩ := noclash_pair (hnoclash s hs) hne
    simp [h1, h2]
  rcases hcase with ⟨s, -, -, -, -, heq⟩ | ⟨-, heq⟩ | ⟨-, heq⟩
  · rw [heq]; exact hcf
  · rw [heq]
    intro x hx y hy hne
    rcases mem_replace_cases hx with rfl | ⟨hxs, hxo⟩
    · rcases mem_replace_cases hy with rfl | ⟨hys, hyo⟩
      · exact absurd rfl hne
      · exact (hpair y hys hyo).2
    · rcases mem_replace_cases hy with rfl | ⟨hys, hyo⟩
      · exact (hpair x hxs hxo).1
      · exact hcf x hxs y hys hne
  · rw [heq]
    intro x hx y hy hne
    rcases List.mem_append.mp hx with hxs | hxr
    · rcases List.mem_append.mp hy with hys | hyr
      · exact hcf x hxs y hys hne
      · have hyr' : y = r := by simpa using hyr
        rw [hyr'] at hne ⊢
        exact (hpair x hxs hne).1
    · have hxr' : x = r := by simpa using hxr
      rw [hxr'] at hne ⊢
      rcases List.mem_append.mp hy with hys | hyr
      · exact (hpair y hys (fun hcontra => hne hcontra.symm)).2
      · have hyr' : y = r := by simpa using hyr
        rw [hyr'] at hne
        exact absurd rfl hne

theorem WFOwners_preserved {rs : List RewriteRule} {r : RewriteRule}
    (hwf : WFOwners rs) (h : (AddRule rs r).err = none) :
    WFOwners (AddRule rs r).rules := by
  obtain ⟨-, hcase⟩ := AddRule_ok_cases h
  rcases hcase with ⟨s, -, -, -, -, heq⟩ | ⟨-, heq⟩ | ⟨hnew, heq⟩
  · rw [heq]; exact hwf
  · rw [heq]
    unfold WFOwners
    have : (rs.map (fun t => if t.owner == r.owner then r else t)).map (fun t => t.owner)
        = rs.map (fun t => t.owner) := by
      rw [List.map_map]
      apply List.map_congr_left
      intro t _
      by_cases hb : (t.owner == r.owner) = true
      · simp only [Function.comp_apply, if_pos hb]
        exact (eq_of_beq hb).symm
      · simp only [Function.comp_apply, if_neg hb]
    rw [this]
    exact hwf
  · rw [heq]
    unfold WFOwners
    rw [List.map_append]
    apply List.Nodup.append hwf (by simp)
    intro a ha hb
    have hb' : a = r.owner := by simpa using hb
    obtain ⟨u, hu, huo⟩ := List.mem_map.mp ha
    exact hnew u hu (by rw [huo, hb'])

theorem ValidAll_preserved {rs : List RewriteRule} {r : RewriteRule}
    (hall : ∀ t ∈ rs, ValidRule t) (hr : ValidRule r) (h : (AddRule rs r).err = none) :
    ∀ t ∈ (AddRule rs r).rules, ValidRule t := by
  obtain ⟨-, hcase⟩ := AddRule_ok_cases h
  rcases hcase with ⟨s, -, -, -, -, heq⟩ | ⟨-, heq⟩ | ⟨-, heq⟩
  · rw [heq]; exact hall
  · rw [heq]
    intro x hx
    rcases mem_replace_cases hx with rfl | ⟨hxs, -⟩
    · exact hr
    · exact hall x hxs
  · rw [heq]
    intro x hx
    rcases List.mem_append.mp hx with hxs | hxr
    · exact hall x hxs
    · have : x = r := by simpa using hxr
      subst this
      exact hr

/-- Every set reachable by successful `AddRule` calls has distinct owners, is
clash-free and contains only validated rules. -/
theorem Built_invariant {rs : List RewriteRule} (h : Built rs) :
    WFOwners rs ∧ ClashFree rs ∧ ∀ r ∈ rs, ValidRule r := by
  induction h with
  | nil => exact ⟨by simp [WFOwners], by intro s hs; simp at hs, by simp⟩
  | step hb hv herr ih =>
    exact ⟨WFOwners_preserved ih.1 herr, ClashFree_preserved ih.2.1 herr,
      ValidAll_preserved ih.2.2 hv herr⟩

/-! ### Claim C1 -/

/-- C1: `AddRule(S, r)` fails with a ConflictError identifying both owners
and both `from` values iff some rule `s ∈ S` with `s.owner ≠ r.owner`
satisfies `Matches(s, r.from)` or `Matches(r, s.from)` (wildcard `*.suffix`
matching every host ending in `.suffix`, non-wildcards matching only
themselves), leaving the set unchanged; in particular adding o3's
`x.foo.com` to a set holding only o2's `*.foo.com` rule conflicts and leaves
only o2's rule. -/
theorem claim_C1_addRule_conflict :
    (∀ (rs : List RewriteRule) (r : RewriteRule),
      ((AddRule rs r).err ≠ none ↔
        ∃ s ∈ rs, s.owner ≠ r.owner ∧
          (s.Matches r.«from» = true ∨ r.Matches s.«from» = true))
      ∧ ((AddRule rs r).err ≠ none → (AddRule rs r).rules = rs)
      ∧ (∀ e, (AddRule rs r).err = some e →
          ∃ s ∈ rs, s.owner ≠ r.owner ∧
            (s.Matches r.«from» = true ∨ r.Matches s.«from» = true) ∧
            e = .conflict r.owner r.«from» s.owner s.«from»))
    ∧ AddRule [⟨"o2", "*.foo.com", "bar.com"⟩] ⟨"o3", "x.foo.com", "baz.com"⟩
        = ⟨[⟨"o2", "*.foo.com", "bar.com"⟩], false,
            some (.conflict "o3" "x.foo.com" "o2" "*.foo.com")⟩ := by
  refine ⟨fun rs r => ⟨?_, AddRule_rules_of_err, ?_⟩, by rfl⟩
  · rw [Ne, AddRule_err_none_iff]
    constructor
    · intro hne
      cases hf : rs.find? (fun s => clashesWith s r) with
      | none => exact absurd hf hne
      | some s =>
        have hmem := List.mem_of_find?_eq_some hf
        have hp : clashesWith s r = true := by simpa using List.find?_some hf
        obtain ⟨h1, h2⟩ := clashesWith_eq_true.mp hp
        exact ⟨s, hmem, h1, h2⟩
    · rintro ⟨s, hmem, h1, h2⟩ hnone
      have := List.find?_eq_none.mp hnone s hmem
      exact this (clashesWith_eq_true.mpr ⟨h1, h2⟩)
  · intro e he
    rcases AddRule_err_cases rs r with h0 | ⟨s, hf, heq⟩
    · rw [h0] at he; cases he
    · have hmem := List.mem_of_find?_eq_some hf
      have hp : clashesWith s r = true := by simpa using List.find?_some hf
      obtain ⟨h1, h2⟩ := clashesWith_eq_true.mp hp
      refine ⟨s, hmem, h1, h2, ?_⟩
      rw [heq] at he
      cases he
      rfl

/-- Witness for C1 at the concrete conflict scenario of the claim. -/
theorem claim_C1_addRule_conflict_witness :
    (AddRule [⟨"o2", "*.foo.com", "bar.com"⟩]
        (⟨"o3", "x.foo.com", "baz.com"⟩ : RewriteRule)).rules
      = [⟨"o2", "*.foo.com", "bar.com"⟩] :=
  (claim_C1_addRule_conflict.1 [⟨"o2", "*.foo.com", "bar.com"⟩]
    ⟨"o3", "x.foo.com", "baz.com"⟩).2.1 (by decide)

/-! ### Claim C2 -/

/-- C2: for a rule set with the clash-freeness invariant (under which every
hostname is matched by at most one rule), a successful `AddRule` preserves
clash-freeness (and distinct owners), and a failing `AddRule` leaves the set
exactly as it was. -/
theorem claim_C2_addRule_invariant :
    ∀ (rs : List RewriteRule) (r : RewriteRule), WFOwners rs → ClashFree rs →
      (∀ (host : String) (s t : RewriteRule), s ∈ rs → t ∈ rs →
        s.Matches host = true → t.Matches host = true → s = t)
      ∧ ((AddRule rs r).err = none →
          ClashFree (AddRule rs r).rules ∧ WFOwners (AddRule rs r).rules)
      ∧ ((AddRule rs r).err ≠ none → (AddRule rs r).rules = rs) := by
  intro rs r hwf hcf
  exact ⟨fun host s t hs ht hms hmt => at_most_one_match hwf hcf hs ht hms hmt,
    fun h => ⟨ClashFree_preserved hcf h, WFOwners_preserved hwf h⟩,
    AddRule_rules_of_err⟩

/-- Witness for C2: a clash-free insert stays clash-free, and the concrete
conflicting insert leaves the set unchanged. -/
theorem claim_C2_addRule_invariant_witness :
    ClashFree (AddRule [⟨"o2", "*.foo.com", "bar.com"⟩]
        (⟨"o1", "a.example.com", "1.2.3.4"⟩ : RewriteRule)).rules
    ∧ (AddRule [⟨"o2", "*.foo.com", "bar.com"⟩]
        (⟨"o3", "x.foo.com", "baz.com"⟩ : RewriteRule)).rules
      = [⟨"o2", "*.foo.com", "bar.com"⟩] :=
  ⟨((claim_C2_addRule_invariant [⟨"o2", "*.foo.com", "bar.com"⟩]
      ⟨"o1", "a.example.com", "1.2.3.4"⟩ (by decide) (by decide)).2.1 (by decide)).1,
   (claim_C2_addRule_invariant [⟨"o2", "*.foo.com", "bar.com"⟩]
      ⟨"o3", "x.foo.com", "baz.com"⟩ (by decide) (by decide)).2.2 (by decide)⟩

/-! ### Claim C5 -/

/-- C5: constructing a rewrite rule succeeds iff `to` is not an IP literal or
`from` is not a wildcard, and both names pass hostname validation (wildcard
allowed only as the leading label of `from`); on failure a ValidationError is
returned and no rule is produced. -/
theorem claim_C5_newRewriteRule_validation :
    ∀ owner fromName toName : String,
      ((∃ r, NewRewriteRule owner fromName toName = .ok r) ↔
        ((isIpAddress toName = false ∨ isWildcardDnsName fromName = false)
          ∧ checkDnsName fromName true = true ∧ checkDnsName toName false = true))
      ∧ ((∃ r, NewRewriteRule owner fromName toName = .ok r) →
          NewRewriteRule owner fromName toName = .ok ⟨owner, fromName, toName⟩)
      ∧ (¬(∃ r, NewRewriteRule owner fromName toName = .ok r) →
          ∃ msg, NewRewriteRule owner fromName toName = .error (.validation msg)) := by
  intro o f t
  unfold NewRewriteRule
  split_ifs with h1 h2 h3
  · refine ⟨⟨?_, ?_⟩, ?_, fun _ => ⟨_, rfl⟩⟩
    · rintro ⟨r, hr⟩; exact absurd hr (by simp)
    · rintro ⟨hor, -, -⟩
      rcases hor with hip | hwild
      · exact absurd hip (by simp [h3.1])
      · exact absurd hwild (by simp [h3.2])
    · rintro ⟨r, hr⟩; exact absurd hr (by simp)
  · refine ⟨⟨fun _ => ?_, fun _ => ⟨_, rfl⟩⟩, fun _ => rfl, fun hc => absurd ⟨_, rfl⟩ hc⟩
    refine ⟨?_, h1, h2⟩
    rcases not_and_or.mp h3 with hip | hwild
    · exact Or.inl (by simpa using hip)
    · exact Or.inr (by simpa using hwild)
  · refine ⟨⟨?_, ?_⟩, ?_, fun _ => ⟨_, rfl⟩⟩
    · rintro ⟨r, hr⟩; exact absurd hr (by simp)
    · rintro ⟨-, -, ht⟩; exact absurd ht h2
    · rintro ⟨r, hr⟩; exact absurd hr (by simp)
  · refine ⟨⟨?_, ?_⟩, ?_, fun _ => ⟨_, rfl⟩⟩
    · rintro ⟨r, hr⟩; exact absurd hr (by simp)
    · rintro ⟨-, hf, -⟩; exact absurd hf h1
    · rintro ⟨r, hr⟩; exact absurd hr (by simp)

/-- Witness for C5 at a valid and an invalid concrete input. -/
theorem claim_C5_newRewriteRule_validation_witness :
    NewRewriteRule "o1" "a.example.com" "1.2.3.4"
      = .ok ⟨"o1", "a.example.com", "1.2.3.4"⟩
    ∧ ∃ msg, NewRewriteRule "o1" "*.a.com" "1.2.3.4" = .error (.validation msg) := by
  constructor
  · exact (claim_C5_newRewriteRule_validation "o1" "a.example.com" "1.2.3.4").2.1 ⟨_, rfl⟩
  · apply (claim_C5_newRewriteRule_validation "o1" "*.a.com" "1.2.3.4").2.2
    rintro ⟨r, h⟩
    have heval : NewRewriteRule "o1" "*.a.com" "1.2.3.4"
        = .error (.validation "wildcards are not allowed with IP address targets") := rfl
    rw [heval] at h
    exact absurd h (by simp)

/-! ### Claims C7 and C8: the resolver -/

theorem checkAt_err_forces_false {w : DnsWorld} {host exp server : String} {port : Nat}
    (h : (checkAt w host exp server port).2 ≠ []) :
    (checkAt w host exp server port).1 = false := by
  unfold checkAt at h ⊢
  by_cases hexp : exp = ""
  · cases hL1 : Lookup w host server port <;> simp_all [hexp]
  · cases hL1 : Lookup w host server port <;>
      cases hL2 : Lookup w exp server port <;> simp_all [hexp]

theorem checkEndpoint_err_forces_false {w : DnsWorld} {inC : Bool}
    {host exp : String} {e : Endpoint}
    (h : (checkEndpoint w inC host exp e).2 ≠ []) :
    (checkEndpoint w inC host exp e).1 = false := by
  unfold checkEndpoint at h ⊢
  by_cases hb : (e.inCluster && !inC) = true
  · rw [if_pos hb] at h ⊢
    cases hpf : w.portforwardStart e with
    | error err => rfl
    | ok p =>
      rw [hpf] at h
      dsimp only at h ⊢
      exact checkAt_err_forces_false h
  · rw [if_neg hb] at h ⊢
    exact checkAt_err_forces_false h

theorem aggregate_go (results : List (Bool × List String))
    (h : ∀ p ∈ results, p.2 ≠ [] → p.1 = false) :
    ∀ (a : Bool) (errs : List String),
      results.foldl aggStep (a, errs)
      = (a && results.all (fun p => p.1), errs ++ collectErrs results) := by
  induction results with
  | nil => intro a errs; simp [collectErrs]
  | cons p ps ih =>
    intro a errs
    obtain ⟨pb, pe⟩ := p
    have hp := h (pb, pe) (by simp)
    have hps : ∀ q ∈ ps, q.2 ≠ [] → q.1 = false := fun q hq => h q (by simp [hq])
    by_cases h2 : pe = []
    · subst h2
      cases pb with
      | true =>
        have hstep : aggStep (a, errs) (true, []) = (a, errs) := by simp [aggStep]
        rw [List.foldl_cons, hstep, ih hps a errs]
        simp [collectErrs]
      | false =>
        have hstep : aggStep (a, errs) (false, []) = (false, errs) := by simp [aggStep]
        rw [List.foldl_cons, hstep, ih hps false errs]
        simp [collectErrs]
    · have h1' : pb = false := hp (by simpa using h2)
      subst h1'
      have hne : pe.isEmpty = false := by
        cases hpe : pe.isEmpty
        · rfl
        · exact absurd (by simpa using hpe) h2
      have hstep : aggStep (a, errs) (false, pe) = (false, errs ++ pe) := by
        simp [aggStep, hne]
      rw [List.foldl_cons, hstep, ih hps false (errs ++ pe)]
      simp [collectErrs, List.append_assoc]

theorem aggregate_eq (results : List (Bool × List String))
    (h : ∀ p ∈ results, p.2 ≠ [] → p.1 = false) :
    aggregate results = (results.all (fun p => p.1), collectErrs results) := by
  unfold aggregate
  rw [aggregate_go results h true []]
  simp

/-- C7: `CheckRecord` aggregates fan-in as the AND of the per-endpoint
successes with the concatenation of all technical errors; any endpoint's
technical error forces `active = false`; an empty endpoint set is vacuously
`(true, nil)`; a legitimate mismatch yields `(false, nil)` while a technical
error yields `(false, err)`. -/
theorem claim_C7_checkRecord_aggregation :
    (∀ (w : DnsWorld) (cfg : ResolverCfg) (host exp : String) (endpoints : List Endpoint),
      (if cfg.endpoints.isEmpty then w.discover else .ok cfg.endpoints) = .ok endpoints →
        CheckRecord w cfg host exp =
          ((endpoints.map (checkEndpoint w cfg.inCluster host exp)).all (fun p => p.1),
            collectErrs (endpoints.map (checkEndpoint w cfg.inCluster host exp)))
        ∧ (endpoints = [] → CheckRecord w cfg host exp = (true, []))
        ∧ (∀ p ∈ endpoints.map (checkEndpoint w cfg.inCluster host exp),
            p.2 ≠ [] → (CheckRecord w cfg host exp).1 = false))
    ∧ CheckRecord scenarioWorld ⟨true, [ep1, ep2]⟩ "h.example.com" "e.example.com"
        = (false, [])
    ∧ CheckRecord scenarioWorld ⟨true, [ep1, ep3]⟩ "h.example.com" "e.example.com"
        = (false, ["lookup failed"]) := by
  refine ⟨?_, by rfl, by rfl⟩
  intro w cfg host exp endpoints heff
  have herr : ∀ p ∈ endpoints.map (checkEndpoint w cfg.inCluster host exp),
      p.2 ≠ [] → p.1 = false := by
    intro p hp hne
    obtain ⟨e, -, rfl⟩ := List.mem_map.mp hp
    exact checkEndpoint_err_forces_false hne
  have hrec : CheckRecord w cfg host exp =
      ((endpoints.map (checkEndpoint w cfg.inCluster host exp)).all (fun p => p.1),
        collectErrs (endpoints.map (checkEndpoint w cfg.inCluster host exp))) := by
    unfold CheckRecord
    rw [heff]
    exact aggregate_eq _ herr
  refine ⟨hrec, ?_, ?_⟩
  · intro hnil
    rw [hrec, hnil]
    simp [collectErrs]
  · intro p hp hne
    rw [hrec]
    have hfalse := herr p hp hne
    have : ¬((endpoints.map (checkEndpoint w cfg.inCluster host exp)).all (fun p => p.1)
        = true) := by
      intro hall
      rw [List.all_eq_true] at hall
      have := hall p hp
      rw [hfalse] at this
      cases this
    simpa using this

/-- Witness for C7: the aggregation identity and the vacuous-truth case at
concrete inputs. -/
theorem claim_C7_checkRecord_aggregation_witness :
    CheckRecord scenarioWorld ⟨true, [ep1, ep2]⟩ "h.example.com" "e.example.com"
      = (([ep1, ep2].map (checkEndpoint scenarioWorld true "h.example.com" "e.example.com")).all
          (fun p => p.1),
         collectErrs ([ep1, ep2].map
          (checkEndpoint scenarioWorld true "h.example.com" "e.example.com")))
    ∧ CheckRecord scenarioWorld ⟨true, []⟩ "h.example.com" "e.example.com" = (true, []) := by
  constructor
  · exact (claim_C7_checkRecord_aggregation.1 scenarioWorld ⟨true, [ep1, ep2]⟩
      "h.example.com" "e.example.com" [ep1, ep2] (by rfl)).1
  · exact (claim_C7_checkRecord_aggregation.1 scenarioWorld ⟨true, []⟩
      "h.example.com" "e.example.com" [] (by rfl)).2.1 rfl

/-- C8: the per-endpoint verdict — through the tunnel when the endpoint is
in-cluster and the resolver is not (a tunnel failure is the endpoint's
technical error), directly otherwise; success is: no technical error, and
zero addresses for `host` when `expectedResult` is empty, else at least one
address and equal sorted address lists; name-not-found counts as zero
addresses, not as an error. -/
theorem claim_C8_perEndpoint_verdict :
    ∀ (w : DnsWorld) (inC : Bool) (host exp : String) (e : Endpoint),
      ((e.inCluster = false ∨ inC = true) →
        checkEndpoint w inC host exp e = checkAt w host exp e.address e.port)
      ∧ (∀ p, e.inCluster = true → inC = false → w.portforwardStart e = .ok p →
          checkEndpoint w inC host exp e = checkAt w host exp "127.0.0.1" p)
      ∧ (∀ err, e.inCluster = true → inC = false → w.portforwardStart e = .error err →
          checkEndpoint w inC host exp e = (false, [err]))
      ∧ (∀ server port,
          (checkAt w host exp server port).1 =
            ((checkAt w host exp server port).2.isEmpty &&
              (if exp = "" then (addrsAt w host server port).isEmpty
               else !(addrsAt w host server port).isEmpty &&
                 addrsAt w host server port == addrsAt w exp server port)))
      ∧ (∀ (h server : String) (port : Nat), w.rawLookup h server port = .notFound →
          Lookup w h server port = .ok []) := by
  intro w inC host exp e
  refine ⟨?_, ?_, ?_, ?_, ?_⟩
  · intro hcase
    unfold checkEndpoint
    rw [if_neg]
    rcases hcase with h | h <;> simp [h]
  · intro p h1 h2 hpf
    unfold checkEndpoint
    rw [if_pos (by simp [h1, h2]), hpf]
  · intro err h1 h2 hpf
    unfold checkEndpoint
    rw [if_pos (by simp [h1, h2]), hpf]
  · intro server port
    unfold checkAt addrsAt
    by_cases hexp : exp = ""
    · cases hL1 : Lookup w host server port <;> simp [hexp, hL1]
    · cases hL1 : Lookup w host server port <;>
        cases hL2 : Lookup w exp server port <;>
        simp [hexp, hL1, hL2]
  · intro h server port hnf
    unfold Lookup
    rw [hnf]

/-- Witness for C8 at a concrete endpoint and world. -/
theorem claim_C8_perEndpoint_verdict_witness :
    checkEndpoint scenarioWorld true "h.example.com" "e.example.com" ep2
      = checkAt scenarioWorld "h.example.com" "e.example.com" ep2.address ep2.port
    ∧ Lookup scenarioWorld "missing.example.com" "s9" 53 = .ok [] := by
  constructor
  · exact (claim_C8_perEndpoint_verdict scenarioWorld true "h.example.com"
      "e.example.com" ep2).1 (Or.inl rfl)
  · exact (claim_C8_perEndpoint_verdict scenarioWorld true "h.example.com"
      "e.example.com" ep2).2.2.2.2 "missing.example.com" "s9" 53 (by rfl)

/-! ### Claim C9: the config-map write debounce -/

theorem configMapWriteStep_written {delay now : Nat} {st : ArtifactState} {d : String}
    (h : (configMapWriteStep delay now st d).2 = .written 1) :
    configMapWriteStep delay now st d = (⟨d, some (some now)⟩, .written 1) := by
  unfold configMapWriteStep at h ⊢
  match hst : st.lastUpdatedAt with
  | some none =>
    rw [hst] at h
    exact absurd h (by simp)
  | some (some t) =>
    rw [hst] at h
    dsimp only at h ⊢
    by_cases hlt : now < t + delay
    · rw [if_pos hlt] at h
      exact absurd h (by simp)
    · rw [if_neg hlt]
  | none => rfl

/-- C9: in both the create/update and the deletion path, when the reconcile
computed a changed rule set, the artifact is left untouched and the outcome
is requeued after ~1s whenever `now` is before the stored last-write
timestamp plus the configured delay; otherwise the write proceeds and the
timestamp is refreshed to `now` — hence two desired writes inside one delay
window persist exactly once, the second deferred until the window elapses. -/
theorem claim_C9_debounce :
    (∀ (delay now : Nat) (st : ArtifactState) (newData : String) (t0 : Nat),
      st.lastUpdatedAt = some (some t0) → now < t0 + delay →
        configMapWriteStep delay now st newData = (st, .skipped 1))
    ∧ (∀ (delay now : Nat) (st : ArtifactState) (newData : String) (t0 : Nat),
        st.lastUpdatedAt = some (some t0) → ¬(now < t0 + delay) →
          configMapWriteStep delay now st newData = (⟨newData, some (some now)⟩, .written 1))
    ∧ (∀ (delay now : Nat) (st : ArtifactState) (newData : String),
        st.lastUpdatedAt = none →
          configMapWriteStep delay now st newData = (⟨newData, some (some now)⟩, .written 1))
    ∧ (∀ (delay t1 t2 t3 : Nat) (st0 : ArtifactState) (d1 d2 : String),
        (configMapWriteStep delay t1 st0 d1).2 = .written 1 →
        t2 < t1 + delay → t1 + delay ≤ t3 →
          configMapWriteStep delay t2 (configMapWriteStep delay t1 st0 d1).1 d2
            = ((configMapWriteStep delay t1 st0 d1).1, .skipped 1)
          ∧ (configMapWriteStep delay t1 st0 d1).1.data = d1
          ∧ configMapWriteStep delay t3 (configMapWriteStep delay t1 st0 d1).1 d2
              = (⟨d2, some (some t3)⟩, .written 1)) := by
  have hskip : ∀ (delay now : Nat) (st : ArtifactState) (newData : String) (t0 : Nat),
      st.lastUpdatedAt = some (some t0) → now < t0 + delay →
        configMapWriteStep delay now st newData = (st, .skipped 1) := by
    intro delay now st newData t0 hst hlt
    unfold configMapWriteStep
    rw [hst]
    dsimp only
    rw [if_pos hlt]
  have hwrite : ∀ (delay now : Nat) (st : ArtifactState) (newData : String) (t0 : Nat),
      st.lastUpdatedAt = some (some t0) → ¬(now < t0 + delay) →
        configMapWriteStep delay now st newData = (⟨newData, some (some now)⟩, .written 1) := by
    intro delay now st newData t0 hst hge
    unfold configMapWriteStep
    rw [hst]
    dsimp only
    rw [if_neg hge]
  refine ⟨hskip, hwrite, ?_, ?_⟩
  · intro delay now st newData hst
    unfold configMapWriteStep
    rw [hst]
  · intro delay t1 t2 t3 st0 d1 d2 hw h2 h3
    have h1 := configMapWriteStep_written hw
    have hst1 : (configMapWriteStep delay t1 st0 d1).1.lastUpdatedAt = some (some t1) := by
      rw [h1]
    refine ⟨hskip delay t2 _ d2 t1 hst1 h2, by rw [h1], ?_⟩
    exact hwrite delay t3 _ d2 t1 hst1 (by omega)

/-- Witness for C9: a first write at time 10, a deferred second attempt at
time 12 inside the 5-unit window, and the deferred write landing at 15. -/
theorem claim_C9_debounce_witness :
    configMapWriteStep 5 12 (configMapWriteStep 5 10 ⟨"", none⟩ "x").1 "y"
      = ((configMapWriteStep 5 10 (⟨"", none⟩ : ArtifactState) "x").1, .skipped 1)
    ∧ (configMapWriteStep 5 10 (⟨"", none⟩ : ArtifactState) "x").1.data = "x"
    ∧ configMapWriteStep 5 15 (configMapWriteStep 5 10 ⟨"", none⟩ "x").1 "y"
        = (⟨"y", some (some 15)⟩, .written 1) :=
  claim_C9_debounce.2.2.2 5 10 12 15 ⟨"", none⟩ "x" "y" (by rfl) (by omega) (by omega)

/-! ### Claims C6 and C10: parser strictness and the empty-string case -/

/-- The one-step unfolding of `parseLines` on a nonempty line list. -/
theorem parseLines_cons (fuel : Nat) (line : List Char) (rest : List (List Char)) (hh : Bool)
    (n : Nat) (rs : List RewriteRule) :
    parseLines (fuel+1) (line :: rest) hh n rs =
    (if line = "hosts /dev/null \x7b".data ∧ hh = false then
      parseLines fuel rest true (n+1) rs
    else if line = "  ttl 10".data ∧ rest.take 2 = ["  fallthrough".data, "\x7d".data] then
      parseLines fuel (rest.drop 2) false (n+3) rs
    else
      match matchCommentLine "# owner: ".data line with
      | none => .error (.parseAtLine n)
      | some owner =>
        match rest.head? with
        | none => .error .prematureEnd
        | some l2 =>
          match matchCommentLine "# from: ".data l2 with
          | none => .error (.parseAtLine (n+1))
          | some fromName =>
            match (rest.drop 1).head? with
            | none => .error .prematureEnd
            | some l3 =>
              match matchCommentLine "# to: ".data l3 with
              | none => .error (.parseAtLine (n+2))
              | some toName =>
                match (rest.drop 2).head? with
                | none => .error .prematureEnd
                | some l4 =>
                  if (if hh then isHostsEntryLine l4 else isRewriteEntryLine l4) then
                    match NewRewriteRule owner fromName toName with
                    | .error e => .error e
                    | .ok r =>
                      let res := AddRule rs r
                      match res.err with
                      | some e => .error e
                      | none => parseLines fuel (rest.drop 3) hh (n+4) res.rules
                  else .error (.parseAtLine (n+3))) := rfl

/-- `parseLines` accepts an exhausted input with any fuel. -/
theorem parseLines_nil (fuel : Nat) (hh : Bool) (n : Nat) (rs : List RewriteRule) :
    parseLines fuel [] hh n rs = .ok rs := by
  cases fuel <;> rfl

/-- C6: the parser is strict and positional — at each of the four positions
of a rule (owner, from, to, directive) a line that does not match the
expected shape fails with that line's 1-based number, and end-of-input after
one, two or three lines of a rule fails with premature termination; in
particular a `# owner:` line followed by a non-`# from:` line fails at the
following line's number. -/
theorem claim_C6_parser_strictness :
    (∀ (fuel : Nat) (line : List Char) (rest : List (List Char)) (hh : Bool) (n : Nat)
        (rs : List RewriteRule),
      ¬(line = "hosts /dev/null \x7b".data ∧ hh = false) →
      ¬(line = "  ttl 10".data ∧ rest.take 2 = ["  fallthrough".data, "\x7d".data]) →
      matchCommentLine "# owner: ".data line = none →
      parseLines (fuel+1) (line :: rest) hh n rs = .error (.parseAtLine n))
    ∧ (∀ (fuel : Nat) (line l2 : List Char) (rest2 : List (List Char)) (hh : Bool) (n : Nat)
        (rs : List RewriteRule) (o : String),
      ¬(line = "hosts /dev/null \x7b".data ∧ hh = false) →
      ¬(line = "  ttl 10".data ∧ (l2 :: rest2).take 2 = ["  fallthrough".data, "\x7d".data]) →
      matchCommentLine "# owner: ".data line = some o →
      matchCommentLine "# from: ".data l2 = none →
      parseLines (fuel+1) (line :: l2 :: rest2) hh n rs = .error (.parseAtLine (n+1)))
    ∧ (∀ (fuel : Nat) (line l2 l3 : List Char) (rest3 : List (List Char)) (hh : Bool) (n : Nat)
        (rs : List RewriteRule) (o f : String),
      ¬(line = "hosts /dev/null \x7b".data ∧ hh = false) →
      ¬(line = "  ttl 10".data ∧ (l2 :: l3 :: rest3).take 2
          = ["  fallthrough".data, "\x7d".data]) →
      matchCommentLine "# owner: ".data line = some o →
      matchCommentLine "# from: ".data l2 = some f →
      matchCommentLine "# to: ".data l3 = none →
      parseLines (fuel+1) (line :: l2 :: l3 :: rest3) hh n rs = .error (.parseAtLine (n+2)))
    ∧ (∀ (fuel : Nat) (line l2 l3 l4 : List Char) (rest4 : List (List Char)) (hh : Bool)
        (n : Nat) (rs : List RewriteRule) (o f t : String),
      ¬(line = "hosts /dev/null \x7b".data ∧ hh = false) →
      ¬(line = "  ttl 10".data ∧ (l2 :: l3 :: l4 :: rest4).take 2
          = ["  fallthrough".data, "\x7d".data]) →
      matchCommentLine "# owner: ".data line = some o →
      matchCommentLine "# from: ".data l2 = some f →
      matchCommentLine "# to: ".data l3 = some t →
      (if hh then isHostsEntryLine l4 else isRewriteEntryLine l4) = false →
      parseLines (fuel+1) (line :: l2 :: l3 :: l4 :: rest4) hh n rs
        = .error (.parseAtLine (n+3)))
    ∧ (∀ (fuel : Nat) (line : List Char) (hh : Bool) (n : Nat) (rs : List RewriteRule)
        (o : String),
      ¬(line = "hosts /dev/null \x7b".data ∧ hh = false) →
      matchCommentLine "# owner: ".data line = some o →
      parseLines (fuel+1) [line] hh n rs = .error .prematureEnd)
    ∧ (∀ (fuel : Nat) (line l2 : List Char) (hh : Bool) (n : Nat) (rs : List RewriteRule)
        (o f : String),
      ¬(line = "hosts /dev/null \x7b".data ∧ hh = false) →
      ¬(line = "  ttl 10".data ∧ ([l2] : List (List Char)).take 2
          = ["  fallthrough".data, "\x7d".data]) →
      matchCommentLine "# owner: ".data line = some o →
      matchCommentLine "# from: ".data l2 = some f →
      parseLines (fuel+1) [line, l2] hh n rs = .error .prematureEnd)
    ∧ (∀ (fuel : Nat) (line l2 l3 : List Char) (hh : Bool) (n : Nat) (rs : List RewriteRule)
        (o f t : String),
      ¬(line = "hosts /dev/null \x7b".data ∧ hh = false) →
      ¬(line = "  ttl 10".data ∧ ([l2, l3] : List (List Char)).take 2
          = ["  fallthrough".data, "\x7d".data]) →
      matchCommentLine "# owner: ".data line = some o →
      matchCommentLine "# from: ".data l2 = some f →
      matchCommentLine "# to: ".data l3 = some t →
      parseLines (fuel+1) [line, l2, l3] hh n rs = .error .prematureEnd)
    ∧ ParseRewriteRuleSet "# owner: o1\n# to: x" = .error (.parseAtLine 2)
    ∧ ParseRewriteRuleSet "# owner: o1" = .error .prematureEnd := by
  refine ⟨?_, ?_, ?_, ?_, ?_, ?_, ?_, by rfl, by rfl⟩
  · intro fuel line rest hh n rs h1 h2 h3
    rw [parseLines_cons, if_neg h1, if_neg h2, h3]
  · intro fuel line l2 rest2 hh n rs o h1 h2 h3 h4
    rw [parseLines_cons, if_neg h1, if_neg h2, h3]
    dsimp only [List.head?]
    rw [h4]
  · intro fuel line l2 l3 rest3 hh n rs o f h1 h2 h3 h4 h5
    rw [parseLines_cons, if_neg h1, if_neg h2, h3]
    dsimp only [List.head?, List.drop]
    rw [h4]
    dsimp only
    rw [h5]
  · intro fuel line l2 l3 l4 rest4 hh n rs o f t h1 h2 h3 h4 h5 h6
    rw [parseLines_cons, if_neg h1, if_neg h2, h3]
    dsimp only [List.head?, List.drop]
    rw [h4]
    dsimp only
    rw [h5]
    dsimp only
    rw [if_neg (by rw [h6]; exact fun hc => by cases hc)]
  · intro fuel line hh n rs o h1 h2
    rw [parseLines_cons, if_neg h1, if_neg (by rintro ⟨-, hc⟩; cases hc), h2]
    rfl
  · intro fuel line l2 hh n rs o f h1 h2 h3 h4
    rw [parseLines_cons, if_neg h1, if_neg h2, h3]
    dsimp only [List.head?, List.drop]
    rw [h4]
  · intro fuel line l2 l3 hh n rs o f t h1 h2 h3 h4 h5
    rw [parseLines_cons, if_neg h1, if_neg h2, h3]
    dsimp only [List.head?, List.drop]
    rw [h4]
    dsimp only
    rw [h5]

/-- Witness for C6 at the concrete malformed inputs of the claim. -/
theorem claim_C6_parser_strictness_witness :
    parseLines 2 ["# owner: o1".data, "# to: x".data] false 1 [] = .error (.parseAtLine 2)
    ∧ parseLines 1 ["# owner: o1".data] false 1 [] = .error .prematureEnd :=
  ⟨claim_C6_parser_strictness.2.1 1 "# owner: o1".data "# to: x".data [] false 1 [] "o1"
      (by decide) (by decide) (by rfl) (by rfl),
   claim_C6_parser_strictness.2.2.2.2.1 0 "# owner: o1".data false 1 [] "o1"
      (by decide) (by rfl)⟩

/-- C10: `ParseRewriteRuleSet ""` succeeds with the empty rule set even
though the line grammar itself would reject the single empty line that
splitting the empty string produces, at position 1 — this is what makes an
absent or empty persisted artifact decode to "no rules". -/
theorem claim_C10_empty_input :
    ParseRewriteRuleSet "" = .ok []
    ∧ splitOnChar '\n' "".data = [[]]
    ∧ parseLines 1 [[]] false 1 [] = .error (.parseAtLine 1) :=
  ⟨rfl, rfl, rfl⟩

/-! ### Order lemmas for the byte-wise string order and the owner sort -/

theorem leChars_total (a b : List Char) : leChars a b = true ∨ leChars b a = true := by
  induction a generalizing b with
  | nil => exact Or.inl rfl
  | cons x xs ih =>
    cases b with
    | nil => exact Or.inr rfl
    | cons y ys =>
      by_cases hxy : x = y
      · subst hxy
        rcases ih ys with h | h
        · exact Or.inl (by simp [leChars, h])
        · exact Or.inr (by simp [leChars, h])
      · rcases lt_or_gt_of_ne (show x ≠ y from hxy) with h | h
        · exact Or.inl (by simp [leChars, hxy, h])
        · exact Or.inr (by simp [leChars, Ne.symm hxy, h, not_lt_of_gt h])

theorem leChars_trans {a b c : List Char} (hab : leChars a b = true)
    (hbc : leChars b c = true) : leChars a c = true := by
  induction a generalizing b c with
  | nil => rfl
  | cons x xs ih =>
    cases b with
    | nil => simp [leChars] at hab
    | cons y ys =>
      cases c with
      | nil => simp [leChars] at hbc
      | cons z zs =>
        by_cases hxy : x = y <;> by_cases hyz : y = z
        · subst hxy; subst hyz
          simp only [leChars, if_pos rfl] at hab hbc ⊢
          exact ih hab hbc
        · subst hxy
          simp only [leChars, if_pos rfl] at hab
          simp only [leChars, if_neg hyz] at hbc
          simp [leChars, hyz, hbc]
        · subst hyz
          simp only [leChars, if_neg hxy] at hab
          simp [leChars, hxy, hab]
        · simp only [leChars, if_neg hxy] at hab
          simp only [leChars, if_neg hyz] at hbc
          have hlt : x < z := lt_trans (of_decide_eq_true hab) (of_decide_eq_true hbc)
          have hxz : x ≠ z := ne_of_lt hlt
          simp [leChars, hxz, hlt]

theorem leChars_antisymm {a b : List Char} (hab : leChars a b = true)
    (hba : leChars b a = true) : a = b := by
  induction a generalizing b with
  | nil =>
    cases b with
    | nil => rfl
    | cons y ys => simp [leChars] at hba
  | cons x xs ih =>
    cases b with
    | nil => simp [leChars] at hab
    | cons y ys =>
      by_cases hxy : x = y
      · subst hxy
        simp only [leChars, if_pos rfl] at hab hba
        rw [ih hab hba]
      · simp only [leChars, if_neg hxy, if_neg (Ne.symm hxy)] at hab hba
        exact absurd (of_decide_eq_true hba) (not_lt_of_gt (of_decide_eq_true hab))

theorem insertByOwner_perm (r : RewriteRule) (l : List RewriteRule) :
    (insertByOwner r l).Perm (r :: l) := by
  induction l with
  | nil => exact List.Perm.refl _
  | cons s t ih =>
    unfold insertByOwner
    by_cases h : leChars r.owner.data s.owner.data = true
    · rw [if_pos h]
    · rw [if_neg h]
      exact (ih.cons s).trans (List.Perm.swap r s t)

theorem sortByOwner_perm (l : List RewriteRule) : (sortByOwner l).Perm l := by
  induction l with
  | nil => exact List.Perm.refl _
  | cons r t ih =>
    exact (insertByOwner_perm r (sortByOwner t)).trans (ih.cons r)

theorem insertByOwner_sorted {r : RewriteRule} {l : List RewriteRule}
    (hl : l.Pairwise ruleLe) : (insertByOwner r l).Pairwise ruleLe := by
  induction l with
  | nil => simp [insertByOwner, List.Pairwise]
  | cons s t ih =>
    unfold insertByOwner
    by_cases h : leChars r.owner.data s.owner.data = true
    · rw [if_pos h]
      refine List.Pairwise.cons ?_ hl
      intro u hu
      rcases List.mem_cons.mp hu with rfl | hu
      · exact h
      · exact leChars_trans h (List.rel_of_pairwise_cons hl hu)
    · rw [if_neg h]
      have hrs : ruleLe s r := by
        rcases leChars_total r.owner.data s.owner.data with h' | h'
        · exact absurd h' h
        · exact h'
      refine List.Pairwise.cons ?_ (ih (List.Pairwise.sublist (List.sublist_cons_self s t) hl))
      intro u hu
      have hmem := (insertByOwner_perm r t).mem_iff.mp hu
      rcases List.mem_cons.mp hmem with rfl | hu'
      · exact hrs
      · exact List.rel_of_pairwise_cons hl hu'

theorem sortByOwner_sorted (l : List RewriteRule) : (sortByOwner l).Pairwise ruleLe := by
  induction l with
  | nil => simp [sortByOwner]
  | cons r t ih => exact insertByOwner_sorted ih

/-- Two sorted lists with pairwise distinct owners that are permutations of
one another are equal. -/
theorem sorted_nodup_perm_eq : ∀ {l₁ l₂ : List RewriteRule}, l₁.Perm l₂ →
    l₁.Pairwise ruleLe → l₂.Pairwise ruleLe → (l₁.map (fun r => r.owner)).Nodup → l₁ = l₂ := by
  intro l₁
  induction l₁ with
  | nil => intro l₂ hp _ _ _; simpa using hp.symm.eq_nil
  | cons a t₁ ih =>
    intro l₂ hp hs₁ hs₂ hnd
    cases l₂ with
    | nil => exact absurd hp.eq_nil (by simp)
    | cons b t₂ =>
      have hab : a = b := by
        by_contra hne
        have hbmem : b ∈ a :: t₁ := hp.symm.subset (by simp)
        have hamem : a ∈ b :: t₂ := hp.subset (by simp)
        have hb : b ∈ t₁ := by
          rcases List.mem_cons.mp hbmem with h | h
          · exact absurd h.symm hne
          · exact h
        have ha : a ∈ t₂ := by
          rcases List.mem_cons.mp hamem with h | h
          · exact absurd h hne
          · exact h
        have h1 : ruleLe a b := List.rel_of_pairwise_cons hs₁ hb
        have h2 : ruleLe b a := List.rel_of_pairwise_cons hs₂ ha
        have howner : a.owner = b.owner :=
          congrArg String.mk (leChars_antisymm h1 h2)
        have hnd' : a.owner ∉ t₁.map (fun r => r.owner)
            ∧ (t₁.map (fun r => r.owner)).Nodup := by
          rw [List.map_cons, List.nodup_cons] at hnd
          exact hnd
        exact hnd'.1 (List.mem_map.mpr ⟨b, hb, howner.symm⟩)
      subst hab
      have htp : t₁.Perm t₂ := hp.cons_inv
      have hnd' : (t₁.map (fun r => r.owner)).Nodup := by
        rw [List.map_cons, List.nodup_cons] at hnd
        exact hnd.2
      have := ih htp (List.Pairwise.sublist (List.sublist_cons_self a t₁) hs₁)
        (List.Pairwise.sublist (List.sublist_cons_self a t₂) hs₂) hnd'
      rw [this]

/-- Permutations with distinct owners sort identically. -/
theorem sortByOwner_eq_of_perm {l₁ l₂ : List RewriteRule} (hp : l₁.Perm l₂)
    (hnd : WFOwners l₁) : sortByOwner l₁ = sortByOwner l₂ := by
  apply sorted_nodup_perm_eq ((sortByOwner_perm l₁).trans (hp.trans (sortByOwner_perm l₂).symm))
    (sortByOwner_sorted l₁) (sortByOwner_sorted l₂)
  have : (sortByOwner l₁).map (fun r => r.owner) |>.Perm (l₁.map (fun r => r.owner)) :=
    (sortByOwner_perm l₁).map _
  exact this.nodup_iff.mpr hnd

/-! ### Character-level facts used by the round-trip proof -/

theorem ne_of_idx (k : Nat) (a b : Char) {l₁ l₂ : List Char}
    (h₁ : l₁[k]? = some a) (h₂ : l₂[k]? = some b) (hab : ¬a = b) : l₁ ≠ l₂ :=
  fun he => hab (Option.some.inj ((by rw [he, h₂] at h₁; exact h₁ : some b = some a)).symm)

theorem data_of_ne_empty {s : String} (h : s ≠ "") : s.data ≠ [] := by
  intro hd
  apply h
  cases s with
  | mk d => cases hd; rfl

theorem splitOnChar_ne_nil (sep : Char) : ∀ cs : List Char, splitOnChar sep cs ≠ []
  | [] => by simp [splitOnChar]
  | x :: xs => by
    have h := splitOnChar_ne_nil sep xs
    cases heq : splitOnChar sep xs with
    | nil => exact absurd heq h
    | cons hh tt =>
      simp only [splitOnChar, heq]
      split <;> simp

theorem splitOnChar_not_mem (sep : Char) : ∀ (l : List Char), sep ∉ l → splitOnChar sep l = [l]
  | [], _ => rfl
  | x :: xs, h => by
    have hx : x ≠ sep := fun he => h (he ▸ List.mem_cons_self x xs)
    have ih := splitOnChar_not_mem sep xs (fun hm => h (List.mem_cons_of_mem x hm))
    simp only [splitOnChar, ih, if_neg hx]

theorem splitOnChar_append_sep (sep : Char) : ∀ (l t : List Char), sep ∉ l →
    splitOnChar sep (l ++ sep :: t) = l :: splitOnChar sep t
  | [], t, _ => by
    obtain ⟨h, t', heq⟩ := List.exists_cons_of_ne_nil (splitOnChar_ne_nil sep t)
    show splitOnChar sep (sep :: t) = [] :: splitOnChar sep t
    simp only [splitOnChar, heq]
    rw [if_pos trivial]
  | x :: xs, t, h => by
    have hx : x ≠ sep := fun he => h (he ▸ List.mem_cons_self x xs)
    have ih := splitOnChar_append_sep sep xs t (fun hm => h (List.mem_cons_of_mem x hm))
    obtain ⟨hh, tt, heq⟩ := List.exists_cons_of_ne_nil (splitOnChar_ne_nil sep (xs ++ sep :: t))
    show splitOnChar sep (x :: (xs ++ sep :: t)) = (x :: xs) :: splitOnChar sep t
    simp only [splitOnChar, heq]
    have h2 := heq.symm.trans ih
    injection h2 with e1 e2
    rw [if_neg hx, e1, e2]

theorem splitOnChar_joinWith (sep : Char) : ∀ (lines : List (List Char)), lines ≠ [] →
    (∀ l ∈ lines, sep ∉ l) → splitOnChar sep (joinWith sep lines) = lines
  | [], h, _ => absurd rfl h
  | [l], _, hnl => by
    simp only [joinWith, joinTail, List.append_nil]
    exact splitOnChar_not_mem sep l (hnl l (List.mem_cons_self l []))
  | l :: l' :: ls, _, hnl => by
    have ih := splitOnChar_joinWith sep (l' :: ls) (by simp)
      (fun m hm => hnl m (List.mem_cons_of_mem l hm))
    show splitOnChar sep (l ++ sep :: joinWith sep (l' :: ls)) = l :: l' :: ls
    rw [splitOnChar_append_sep sep l _ (hnl l (List.mem_cons_self l _)), ih]

theorem takeWhile_all_stop {p : Char → Bool} : ∀ (xs ys : List Char),
    (∀ c ∈ xs, p c = true) → (∀ c, ys.head? = some c → p c = false) →
    (xs ++ ys).takeWhile p = xs ∧ (xs ++ ys).dropWhile p = ys
  | [], ys, _, hys => by
    cases ys with
    | nil => simp
    | cons y ys' =>
      have := hys y rfl
      simp [List.takeWhile_cons, List.dropWhile_cons, this]
  | x :: xs, ys, hxs, hys => by
    have hx := hxs x (List.mem_cons_self x xs)
    have ih := takeWhile_all_stop xs ys (fun c hc => hxs c (List.mem_cons_of_mem _ hc)) hys
    simp [List.takeWhile_cons, List.dropWhile_cons, hx, ih.1, ih.2]

theorem dropWhile_head_stop {p : Char → Bool} {l : List Char} {c : Char}
    (hc : l.head? = some c) (hp : p c = false) : l.dropWhile p = l := by
  cases l with
  | nil => rfl
  | cons a t =>
    cases hc
    exact List.dropWhile_cons_of_neg (by simp [hp])

/-! ### The comment-line regexp on serialized lines -/

theorem matchCommentLine_hit (tag pre rest : List Char)
    (htag : ∃ c t', tag = c :: t' ∧ isGoSpace c = false)
    (hpre : ∀ c ∈ pre, isGoSpace c = true)
    (hne : rest ≠ []) (hnl : '\n' ∉ rest) :
    matchCommentLine tag (pre ++ tag ++ rest) = some (String.mk rest) := by
  obtain ⟨c, t', rfl, hc⟩ := htag
  have hdrop : (pre ++ (c :: t') ++ rest).dropWhile isGoSpace = (c :: t') ++ rest := by
    rw [List.append_assoc]
    exact (takeWhile_all_stop pre ((c :: t') ++ rest) hpre
      (fun d hd => by rw [(rfl : ((c :: t') ++ rest).head? = some c)] at hd; cases hd; exact hc)).2
  unfold matchCommentLine
  rw [hdrop]
  rw [if_pos (by rw [ List.isPrefixOf_iff_prefix]; exact List.prefix_append _ _)]
  rw [List.drop_left]
  have h1 : rest.isEmpty = false := by simpa using hne
  rw [if_neg (show ¬(rest.isEmpty || rest.contains '\n') = true by simp [h1, hnl])]

theorem matchOwnerLine (s : String) (hne : s.data ≠ []) (hnl : '\n' ∉ s.data) :
    matchCommentLine "# owner: ".data ("# owner: ".data ++ s.data) = some s := by
  have h := matchCommentLine_hit "# owner: ".data [] s.data
    ⟨'#', _, rfl, by decide⟩ (by simp) hne hnl
  simpa using h

theorem matchFromLine (s : String) (hne : s.data ≠ []) (hnl : '\n' ∉ s.data) :
    matchCommentLine "# from: ".data ("# from: ".data ++ s.data) = some s := by
  have h := matchCommentLine_hit "# from: ".data [] s.data
    ⟨'#', _, rfl, by decide⟩ (by simp) hne hnl
  simpa using h

theorem matchToLine (s : String) (hne : s.data ≠ []) (hnl : '\n' ∉ s.data) :
    matchCommentLine "# to: ".data ("# to: ".data ++ s.data) = some s := by
  have h := matchCommentLine_hit "# to: ".data [] s.data
    ⟨'#', _, rfl, by decide⟩ (by simp) hne hnl
  simpa using h

theorem matchOwnerLineH (s : String) (hne : s.data ≠ []) (hnl : '\n' ∉ s.data) :
    matchCommentLine "# owner: ".data ("  # owner: ".data ++ s.data) = some s := by
  have h := matchCommentLine_hit "# owner: ".data "  ".data s.data
    ⟨'#', _, rfl, by decide⟩ (by decide) hne hnl
  exact h

theorem matchFromLineH (s : String) (hne : s.data ≠ []) (hnl : '\n' ∉ s.data) :
    matchCommentLine "# from: ".data ("  # from: ".data ++ s.data) = some s := by
  have h := matchCommentLine_hit "# from: ".data "  ".data s.data
    ⟨'#', _, rfl, by decide⟩ (by decide) hne hnl
  exact h

theorem matchToLineH (s : String) (hne : s.data ≠ []) (hnl : '\n' ∉ s.data) :
    matchCommentLine "# to: ".data ("  # to: ".data ++ s.data) = some s := by
  have h := matchCommentLine_hit "# to: ".data "  ".data s.data
    ⟨'#', _, rfl, by decide⟩ (by decide) hne hnl
  exact h

/-! ### Characters of validated names -/

theorem isGoSpace_cases {c : Char} (h : isGoSpace c = true) :
    c = '\t' ∨ c = '\n' ∨ c = '\x0c' ∨ c = '\r' ∨ c = ' ' := by
  simp only [isGoSpace, Bool.or_eq_true, decide_eq_true_eq] at h
  tauto

theorem dnsChar_not_space {c : Char} (h : dnsChar c = true) : isGoSpace c = false := by
  cases hsp : isGoSpace c
  · rfl
  · rcases isGoSpace_cases hsp with rfl | rfl | rfl | rfl | rfl <;> exact absurd h (by decide)

theorem dnsChar_ne_newline {c : Char} (h : dnsChar c = true) : c ≠ '\n' := by
  intro he; subst he; exact absurd h (by decide)

theorem mem_splitOnChar (sep : Char) : ∀ (cs : List Char) (c : Char), c ∈ cs →
    c = sep ∨ ∃ l ∈ splitOnChar sep cs, c ∈ l
  | [], c, h => absurd h (List.not_mem_nil c)
  | x :: xs, c, h => by
    obtain ⟨hh, tt, heq⟩ := List.exists_cons_of_ne_nil (splitOnChar_ne_nil sep xs)
    rcases List.mem_cons.mp h with rfl | hmem
    · by_cases hx : c = sep
      · exact Or.inl hx
      · refine Or.inr ⟨c :: hh, ?_, List.mem_cons_self c hh⟩
        simp only [splitOnChar, heq, if_neg hx]
        exact List.mem_cons_self _ _
    · rcases mem_splitOnChar sep xs c hmem with hc | ⟨l, hl, hcl⟩
      · exact Or.inl hc
      · rw [heq] at hl
        rcases List.mem_cons.mp hl with rfl | hl'
        · by_cases hx : x = sep
          · refine Or.inr ⟨l, ?_, hcl⟩
            simp only [splitOnChar, heq, if_pos hx]
            exact List.mem_cons_of_mem _ (List.mem_cons_self _ _)
          · refine Or.inr ⟨x :: l, ?_, List.mem_cons_of_mem x hcl⟩
            simp only [splitOnChar, heq, if_neg hx]
            exact List.mem_cons_self _ _
        · refine Or.inr ⟨l, ?_, hcl⟩
          simp only [splitOnChar, heq]
          split
          · exact List.mem_cons_of_mem _ (List.mem_cons_of_mem _ hl')
          · exact List.mem_cons_of_mem _ hl'

theorem labelOk_all {l : List Char} (h : labelOk l = true) :
    ∀ c ∈ l, (isAlnumChar c || c = '-') = true := by
  unfold labelOk at h
  rw [Bool.and_eq_true, Bool.and_eq_true, Bool.and_eq_true, Bool.and_eq_true] at h
  have := h.1.1.2
  simpa [List.all_eq_true] using this

theorem dnsNameOk_chars {cs : List Char} (h : dnsNameOk cs = true) :
    ∀ c ∈ cs, dnsChar c = true := by
  intro c hc
  rcases mem_splitOnChar '.' cs c hc with rfl | ⟨l, hl, hcl⟩
  · decide
  · have hall : ∀ m ∈ splitOnChar '.' cs, labelOk m = true := by
      simpa [dnsNameOk, List.all_eq_true] using h
    have h2 := labelOk_all (hall l hl) c hcl
    rcases Bool.or_eq_true_iff.mp h2 with h3 | h3
    · simp [dnsChar, h3]
    · have h4 := of_decide_eq_true h3
      subst h4; decide

theorem checkDnsName_chars {s : String} {b : Bool} (h : checkDnsName s b = true) :
    s.data ≠ [] ∧ ∀ c ∈ s.data, dnsChar c = true := by
  cases b with
  | false =>
    replace h : (decide (s.data.length ≤ 255) && dnsNameOk s.data) = true := h
    rw [Bool.and_eq_true] at h
    refine ⟨?_, dnsNameOk_chars h.2⟩
    intro heq
    have h2 := h.2
    rw [heq] at h2
    exact absurd h2 (by decide)
  | true =>
    unfold checkDnsName at h
    dsimp only at h
    rw [if_pos rfl] at h
    split at h
    · rename_i cs0 rest heq
      split at h
      · rw [Bool.and_eq_true] at h
        have hd := dnsNameOk_chars h.2
        rw [heq]
        refine ⟨by simp, ?_⟩
        intro c hc
        rcases List.mem_cons.mp hc with rfl | hc2
        · decide
        · rcases List.mem_cons.mp hc2 with rfl | hc3
          · decide
          · exact hd c (List.mem_append_right _ hc3)
      · rw [Bool.and_eq_true] at h
        rw [heq]
        refine ⟨by simp, ?_⟩
        have hd := dnsNameOk_chars h.2
        exact hd
    · rw [Bool.and_eq_true] at h
      refine ⟨?_, dnsNameOk_chars h.2⟩
      intro heq
      have h2 := h.2
      rw [heq] at h2
      exact absurd h2 (by decide)

/-! ### Characters of the escaped wildcard pattern -/

theorem escapeWildcard_ne_nil : ∀ {l : List Char}, l ≠ [] → escapeWildcard l ≠ []
  | [], h => absurd rfl h
  | c :: cs, _ => by
    show ((if c = '.' then ['\\', '.'] else if c = '*' then ['.', '*'] else [c])
        ++ escapeWildcard cs) ≠ []
    split
    · simp
    · split <;> simp

theorem escapeWildcard_chars : ∀ {l : List Char} {c : Char}, c ∈ escapeWildcard l →
    c ∈ l ∨ c = '\\' ∨ c = '.' ∨ c = '*'
  | [], c, h => absurd h (List.not_mem_nil c)
  | d :: ds, c, h => by
    simp only [escapeWildcard] at h
    rcases List.mem_append.mp h with h1 | h2
    · split at h1
      · rcases List.mem_cons.mp h1 with rfl | h3
        · exact Or.inr (Or.inl rfl)
        · simp only [List.mem_singleton] at h3
          exact Or.inr (Or.inr (Or.inl h3))
      · split at h1
        · rcases List.mem_cons.mp h1 with rfl | h3
          · exact Or.inr (Or.inr (Or.inl rfl))
          · simp only [List.mem_singleton] at h3
            exact Or.inr (Or.inr (Or.inr h3))
        · simp only [List.mem_singleton] at h1
          exact Or.inl (h1 ▸ List.mem_cons_self d ds)
    · rcases escapeWildcard_chars h2 with h3 | h3
      · exact Or.inl (List.mem_cons_of_mem d h3)
      · exact Or.inr h3

theorem escapeWildcard_not_space {l : List Char} (hl : ∀ c ∈ l, dnsChar c = true) :
    ∀ c ∈ escapeWildcard l, isGoSpace c = false := by
  intro c hc
  rcases escapeWildcard_chars hc with h | rfl | rfl | rfl
  · exact dnsChar_not_space (hl c h)
  · decide
  · decide
  · decide

theorem escapeWildcard_no_newline {l : List Char} (hl : ∀ c ∈ l, dnsChar c = true) :
    '\n' ∉ escapeWildcard l := by
  intro hm
  rcases escapeWildcard_chars hm with h | h | h | h
  · exact dnsChar_ne_newline (hl _ h) rfl
  · exact absurd h (by decide)
  · exact absurd h (by decide)
  · exact absurd h (by decide)

/-! ### The entry-line regexps on serialized directive lines -/

theorem isRewriteEntryLine_exact (f t : List Char)
    (hf : f ≠ []) (hfc : ∀ c ∈ f, isGoSpace c = false)
    (ht : t ≠ []) (htc : ∀ c ∈ t, isGoSpace c = false) :
    isRewriteEntryLine ("rewrite name exact ".data ++ f ++ ' ' :: t) = true := by
  have hfP : ∀ c ∈ f, (!isGoSpace c) = true := fun c hc => by simp [hfc c hc]
  have hstop : ∀ c, (' ' :: t).head? = some c → (!isGoSpace c) = false := by
    intro c hc; cases hc; decide
  unfold isRewriteEntryLine
  dsimp only
  rw [dropWhile_head_stop (rfl :
      ("rewrite name exact ".data ++ f ++ ' ' :: t).head? = some 'r') (by decide)]
  rw [if_pos (by rw [List.append_assoc, List.isPrefixOf_iff_prefix]; exact List.prefix_append _ _)]
  rw [show (19 : Nat) = ("rewrite name exact ".data).length from rfl, List.append_assoc,
      List.drop_left]
  dsimp only
  rw [(takeWhile_all_stop f (' ' :: t) hfP hstop).1,
      (takeWhile_all_stop f (' ' :: t) hfP hstop).2]
  have h1 : f.isEmpty = false := by simpa using hf
  have h2 : t.isEmpty = false := by simpa using ht
  have h3 : t.all (fun c => !isGoSpace c) = true :=
    List.all_eq_true.mpr (fun c hc => by simp [htc c hc])
  simp [h1, h2, h3]

theorem isRewriteEntryLine_regex (f t : List Char)
    (hf : f ≠ []) (hfc : ∀ c ∈ f, isGoSpace c = false)
    (ht : t ≠ []) (htc : ∀ c ∈ t, isGoSpace c = false) :
    isRewriteEntryLine ("rewrite name regex ".data ++ f ++ ' ' :: t) = true := by
  have hfP : ∀ c ∈ f, (!isGoSpace c) = true := fun c hc => by simp [hfc c hc]
  have hstop : ∀ c, (' ' :: t).head? = some c → (!isGoSpace c) = false := by
    intro c hc; cases hc; decide
  unfold isRewriteEntryLine
  dsimp only
  rw [dropWhile_head_stop (rfl :
      ("rewrite name regex ".data ++ f ++ ' ' :: t).head? = some 'r') (by decide)]
  rw [if_neg (show ¬"rewrite name exact ".data.isPrefixOf
      ("rewrite name regex ".data ++ f ++ ' ' :: t) = true by
    rw [(rfl : "rewrite name exact ".data.isPrefixOf
      ("rewrite name regex ".data ++ f ++ ' ' :: t) = false)]
    exact Bool.false_ne_true)]
  rw [if_pos (by rw [List.append_assoc, List.isPrefixOf_iff_prefix]; exact List.prefix_append _ _)]
  rw [show (19 : Nat) = ("rewrite name regex ".data).length from rfl, List.append_assoc,
      List.drop_left]
  dsimp only
  rw [(takeWhile_all_stop f (' ' :: t) hfP hstop).1,
      (takeWhile_all_stop f (' ' :: t) hfP hstop).2]
  have h1 : f.isEmpty = false := by simpa using hf
  have h2 : t.isEmpty = false := by simpa using ht
  have h3 : t.all (fun c => !isGoSpace c) = true :=
    List.all_eq_true.mpr (fun c hc => by simp [htc c hc])
  simp [h1, h2, h3]

theorem isHostsEntryLine_pair (a b : List Char)
    (ha : a ≠ []) (hac : ∀ c ∈ a, isGoSpace c = false)
    (hb : b ≠ []) (hbc : ∀ c ∈ b, isGoSpace c = false) :
    isHostsEntryLine ("  ".data ++ a ++ ' ' :: b) = true := by
  obtain ⟨a0, a', rfl⟩ := List.exists_cons_of_ne_nil ha
  have haP : ∀ c ∈ a0 :: a', (!isGoSpace c) = true := fun c hc => by simp [hac c hc]
  have hstop : ∀ c, (' ' :: b).head? = some c → (!isGoSpace c) = false := by
    intro c hc; cases hc; decide
  unfold isHostsEntryLine
  dsimp only
  have hd : ("  ".data ++ (a0 :: a') ++ ' ' :: b).dropWhile isGoSpace
      = (a0 :: a') ++ ' ' :: b := by
    rw [List.append_assoc]
    exact (takeWhile_all_stop "  ".data ((a0 :: a') ++ ' ' :: b) (by decide)
      (fun d hd => by cases hd; simp [hac a0 (List.mem_cons_self _ _)])).2
  rw [hd]
  rw [(takeWhile_all_stop (a0 :: a') (' ' :: b) haP hstop).1,
      (takeWhile_all_stop (a0 :: a') (' ' :: b) haP hstop).2]
  obtain ⟨b0, b', rfl⟩ := List.exists_cons_of_ne_nil hb
  have hb0 : isGoSpace b0 = false := hbc b0 (List.mem_cons_self _ _)
  rw [List.takeWhile_cons_of_pos (by decide), List.takeWhile_cons_of_neg (by simp [hb0]),
      List.dropWhile_cons_of_pos (by decide), List.dropWhile_cons_of_neg (by simp [hb0])]
  have h3 : (b0 :: b').all (fun c => !isGoSpace c) = true :=
    List.all_eq_true.mpr (fun c hc => by simp [hbc c hc])
  simp [h3]

/-! ### Facts about validated rules and fresh inserts -/

theorem NewRewriteRule_ok_inv {o f t : String} {r : RewriteRule}
    (h : NewRewriteRule o f t = .ok r) :
    checkDnsName f true = true ∧ checkDnsName t false = true
    ∧ ¬(isIpAddress t = true ∧ isWildcardDnsName f = true) ∧ r = ⟨o, f, t⟩ := by
  unfold NewRewriteRule at h
  split at h
  · cases h
  · split at h
    · cases h
    · split at h
      · cases h
      · rename_i h1 h2 h3
        cases h
        exact ⟨by simpa using h1, by simpa using h2, h3, rfl⟩

theorem ValidRule_parts {r : RewriteRule} (h : ValidRule r) :
    r.«from».data ≠ [] ∧ (∀ c ∈ r.«from».data, dnsChar c = true)
    ∧ r.«to».data ≠ [] ∧ (∀ c ∈ r.«to».data, dnsChar c = true) := by
  obtain ⟨h1, h2, -, -⟩ := NewRewriteRule_ok_inv h
  obtain ⟨hf1, hf2⟩ := checkDnsName_chars h1
  obtain ⟨ht1, ht2⟩ := checkDnsName_chars h2
  exact ⟨hf1, hf2, ht1, ht2⟩

/-- Inserting a rule whose owner is new and which clashes with nothing
appends it. -/
theorem AddRule_fresh {rs : List RewriteRule} {r : RewriteRule}
    (hclash : ∀ s ∈ rs, clashesWith s r = false)
    (howner : ∀ s ∈ rs, s.owner ≠ r.owner) :
    AddRule rs r = ⟨rs ++ [r], true, none⟩ := by
  unfold AddRule
  rw [List.find?_eq_none.mpr (fun s hs => by simp [hclash s hs]),
      List.find?_eq_none.mpr (fun s hs => by simp [howner s hs])]

/-! ### One-step equations of the parser at fixed hosts-mode -/

theorem parseLines_consF (fuel : Nat) (line : List Char) (rest : List (List Char))
    (n : Nat) (rs : List RewriteRule) :
    parseLines (fuel+1) (line :: rest) false n rs =
    (if line = "hosts /dev/null \x7b".data ∧ false = false then
      parseLines fuel rest true (n+1) rs
    else if line = "  ttl 10".data ∧ rest.take 2 = ["  fallthrough".data, "\x7d".data] then
      parseLines fuel (rest.drop 2) false (n+3) rs
    else
      match matchCommentLine "# owner: ".data line with
      | none => .error (.parseAtLine n)
      | some owner =>
        match rest.head? with
        | none => .error .prematureEnd
        | some l2 =>
          match matchCommentLine "# from: ".data l2 with
          | none => .error (.parseAtLine (n+1))
          | some fromName =>
            match (rest.drop 1).head? with
            | none => .error .prematureEnd
            | some l3 =>
              match matchCommentLine "# to: ".data l3 with
              | none => .error (.parseAtLine (n+2))
              | some toName =>
                match (rest.drop 2).head? with
                | none => .error .prematureEnd
                | some l4 =>
                  if isRewriteEntryLine l4 then
                    match NewRewriteRule owner fromName toName with
                    | .error e => .error e
                    | .ok r =>
                      let res := AddRule rs r
                      match res.err with
                      | some e => .error e
                      | none => parseLines fuel (rest.drop 3) false (n+4) res.rules
                  else .error (.parseAtLine (n+3))) := rfl

theorem parseLines_consT (fuel : Nat) (line : List Char) (rest : List (List Char))
    (n : Nat) (rs : List RewriteRule) :
    parseLines (fuel+1) (line :: rest) true n rs =
    (if line = "hosts /dev/null \x7b".data ∧ true = false then
      parseLines fuel rest true (n+1) rs
    else if line = "  ttl 10".data ∧ rest.take 2 = ["  fallthrough".data, "\x7d".data] then
      parseLines fuel (rest.drop 2) false (n+3) rs
    else
      match matchCommentLine "# owner: ".data line with
      | none => .error (.parseAtLine n)
      | some owner =>
        match rest.head? with
        | none => .error .prematureEnd
        | some l2 =>
          match matchCommentLine "# from: ".data l2 with
          | none => .error (.parseAtLine (n+1))
          | some fromName =>
            match (rest.drop 1).head? with
            | none => .error .prematureEnd
            | some l3 =>
              match matchCommentLine "# to: ".data l3 with
              | none => .error (.parseAtLine (n+2))
              | some toName =>
                match (rest.drop 2).head? with
                | none => .error .prematureEnd
                | some l4 =>
                  if isHostsEntryLine l4 then
                    match NewRewriteRule owner fromName toName with
                    | .error e => .error e
                    | .ok r =>
                      let res := AddRule rs r
                      match res.err with
                      | some e => .error e
                      | none => parseLines fuel (rest.drop 3) true (n+4) res.rules
                  else .error (.parseAtLine (n+3))) := rfl

/-! ### Shape facts about the serializer -/

theorem mem_ruleBlocks {f : RewriteRule → List (List Char)} :
    ∀ {rs : List RewriteRule} {l : List Char}, l ∈ ruleBlocks f rs → ∃ r ∈ rs, l ∈ f r
  | [], l, h => absurd h (List.not_mem_nil l)
  | r :: rest, l, h => by
    rcases List.mem_append.mp (by simpa [ruleBlocks] using h) with h1 | h2
    · exact ⟨r, List.mem_cons_self r rest, h1⟩
    · obtain ⟨t, ht, hlt⟩ := mem_ruleBlocks h2
      exact ⟨t, List.mem_cons_of_mem r ht, hlt⟩

theorem ruleBlocks_length (f : RewriteRule → List (List Char))
    (h4 : ∀ r, (f r).length = 4) :
    ∀ rs : List RewriteRule, (ruleBlocks f rs).length = 4 * rs.length
  | [] => rfl
  | r :: rest => by
    simp only [ruleBlocks, List.length_append, h4 r, ruleBlocks_length f h4 rest,
      List.length_cons]
    omega

theorem hostsRuleLines_no_newline {r : RewriteRule} (hv : ValidRule r)
    (ho : '\n' ∉ r.owner.data) : ∀ l ∈ hostsRuleLines r, '\n' ∉ l := by
  obtain ⟨hfne, hfch, htne, htch⟩ := ValidRule_parts hv
  have hf : '\n' ∉ r.«from».data := fun hm => dnsChar_ne_newline (hfch _ hm) rfl
  have ht : '\n' ∉ r.«to».data := fun hm => dnsChar_ne_newline (htch _ hm) rfl
  intro l hl
  simp only [hostsRuleLines, List.mem_cons, List.not_mem_nil, or_false] at hl
  rcases hl with rfl | rfl | rfl | rfl
  · intro hm
    rcases List.mem_append.mp hm with h | h
    · exact absurd h (by decide)
    · exact ho h
  · intro hm
    rcases List.mem_append.mp hm with h | h
    · exact absurd h (by decide)
    · exact hf h
  · intro hm
    rcases List.mem_append.mp hm with h | h
    · exact absurd h (by decide)
    · exact ht h
  · intro hm
    rcases List.mem_append.mp hm with h | h
    · rcases List.mem_append.mp h with h2 | h2
      · exact absurd h2 (by decide)
      · exact ht h2
    · rcases List.mem_cons.mp h with h2 | h2
      · exact absurd h2 (by decide)
      · exact hf h2

theorem rewriteRuleLines_no_newline {r : RewriteRule} (hv : ValidRule r)
    (ho : '\n' ∉ r.owner.data) : ∀ l ∈ rewriteRuleLines r, '\n' ∉ l := by
  obtain ⟨hfne, hfch, htne, htch⟩ := ValidRule_parts hv
  have hf : '\n' ∉ r.«from».data := fun hm => dnsChar_ne_newline (hfch _ hm) rfl
  have ht : '\n' ∉ r.«to».data := fun hm => dnsChar_ne_newline (htch _ hm) rfl
  intro l hl
  simp only [rewriteRuleLines, List.mem_cons, List.not_mem_nil, or_false] at hl
  rcases hl with rfl | rfl | rfl | rfl
  · intro hm
    rcases List.mem_append.mp hm with h | h
    · exact absurd h (by decide)
    · exact ho h
  · intro hm
    rcases List.mem_append.mp hm with h | h
    · exact absurd h (by decide)
    · exact hf h
  · intro hm
    rcases List.mem_append.mp hm with h | h
    · exact absurd h (by decide)
    · exact ht h
  · unfold rewriteDirective
    split
    · intro hm
      rcases List.mem_append.mp hm with h | h
      · rcases List.mem_append.mp h with h2 | h2
        · exact absurd h2 (by decide)
        · exact escapeWildcard_no_newline hfch h2
      · rcases List.mem_cons.mp h with h2 | h2
        · exact absurd h2 (by decide)
        · exact ht h2
    · intro hm
      rcases List.mem_append.mp hm with h | h
      · rcases List.mem_append.mp h with h2 | h2
        · exact absurd h2 (by decide)
        · exact hf h2
      · rcases List.mem_cons.mp h with h2 | h2
        · exact absurd h2 (by decide)
        · exact ht h2

theorem serializeLines_eq (rs : List RewriteRule) :
    serializeLines rs =
      (if ((sortByOwner rs).filter (fun r => isIpAddress r.«to»)).isEmpty then [] else
        "hosts /dev/null \x7b".data
          :: ruleBlocks hostsRuleLines ((sortByOwner rs).filter (fun r => isIpAddress r.«to»))
          ++ ["  ttl 10".data, "  fallthrough".data, "\x7d".data])
      ++ ruleBlocks rewriteRuleLines
          ((sortByOwner rs).filter (fun r => !isIpAddress r.«to»)) := rfl

/-! ### Parsing a serialized run of rule blocks -/

/-- A run of `rewrite`-directive blocks of validated rules with fresh,
nonempty, newline-free owners parses as the successive `AddRule` inserts. -/
theorem parse_rewrite_section (nm : List RewriteRule) :
    ∀ (tail : List (List Char)) (fuel n : Nat) (acc : List RewriteRule),
    (∀ r ∈ nm, ValidRule r ∧ r.owner ≠ "" ∧ '\n' ∉ r.owner.data) →
    WFOwners (acc ++ nm) → ClashFree (acc ++ nm) →
    parseLines (nm.length + fuel) (ruleBlocks rewriteRuleLines nm ++ tail) false n acc
      = parseLines fuel tail false (n + 4 * nm.length) (acc ++ nm) := by
  induction nm with
  | nil =>
    intro tail fuel n acc _ _ _
    simp [ruleBlocks]
  | cons r rest ih =>
    intro tail fuel n acc hval hwf hcf
    obtain ⟨hvr, hone, honl⟩ := hval r (List.mem_cons_self r rest)
    obtain ⟨hfne, hfch, htne, htch⟩ := ValidRule_parts hvr
    have hfnl : '\n' ∉ r.«from».data := fun hm => dnsChar_ne_newline (hfch _ hm) rfl
    have htnl : '\n' ∉ r.«to».data := fun hm => dnsChar_ne_newline (htch _ hm) rfl
    have hdisj : List.Disjoint (acc.map (fun t => t.owner))
        ((r :: rest).map (fun t => t.owner)) := by
      have hmapnd := hwf
      unfold WFOwners at hmapnd
      rw [List.map_append] at hmapnd
      exact List.disjoint_of_nodup_append hmapnd
    have howner : ∀ s ∈ acc, s.owner ≠ r.owner := fun s hs he =>
      hdisj (List.mem_map_of_mem _ hs) (he ▸ List.mem_map_of_mem _ (List.mem_cons_self r rest))
    have hclash : ∀ s ∈ acc, clashesWith s r = false := by
      intro s hs
      by_cases ho : s.owner = r.owner
      · simp [clashesWith, ho]
      · have hmf := hcf s (List.mem_append_left _ hs) r
          (List.mem_append_right _ (List.mem_cons_self r rest)) ho
        simp [clashesWith, hmf]
    have hfresh := AddRule_fresh hclash howner
    have hl4 : isRewriteEntryLine (rewriteDirective r) = true := by
      unfold rewriteDirective
      split
      · exact isRewriteEntryLine_regex (escapeWildcard r.«from».data) r.«to».data
          (escapeWildcard_ne_nil hfne) (escapeWildcard_not_space hfch) htne
          (fun c hc => dnsChar_not_space (htch c hc))
      · exact isRewriteEntryLine_exact r.«from».data r.«to».data hfne
          (fun c hc => dnsChar_not_space (hfch c hc)) htne
          (fun c hc => dnsChar_not_space (htch c hc))
    rw [show ruleBlocks rewriteRuleLines (r :: rest) ++ tail
        = ("# owner: ".data ++ r.owner.data) :: ("# from: ".data ++ r.«from».data)
          :: ("# to: ".data ++ r.«to».data) :: rewriteDirective r
          :: (ruleBlocks rewriteRuleLines rest ++ tail) from by
      simp [ruleBlocks, rewriteRuleLines]]
    rw [show (r :: rest).length + fuel = (rest.length + fuel) + 1 from by
      simp only [List.length_cons]; omega]
    rw [parseLines_consF]
    rw [if_neg (fun hc => absurd hc.1 (ne_of_idx 0 '#' 'h' rfl rfl (by decide)))]
    rw [if_neg (fun hc => absurd hc.1 (ne_of_idx 0 '#' ' ' rfl rfl (by decide)))]
    rw [matchOwnerLine r.owner (data_of_ne_empty hone) honl]
    dsimp only [List.head?, List.drop]
    rw [matchFromLine r.«from» hfne hfnl]
    dsimp only
    rw [matchToLine r.«to» htne htnl]
    dsimp only
    rw [if_pos hl4]
    rw [show NewRewriteRule r.owner r.«from» r.«to» = Except.ok r from hvr]
    dsimp only
    rw [hfresh]
    dsimp only
    rw [ih tail fuel (n + 4) (acc ++ [r])
      (fun x hx => hval x (List.mem_cons_of_mem r hx))
      (by rw [List.append_assoc]; exact hwf)
      (by rw [List.append_assoc]; exact hcf)]
    rw [show (n + 4) + 4 * rest.length = n + 4 * (r :: rest).length from by
      simp only [List.length_cons]; omega]
    rw [show (acc ++ [r]) ++ rest = acc ++ r :: rest from by simp]

/-- A run of hosts-entry blocks of validated rules with fresh, nonempty,
newline-free owners parses as the successive `AddRule` inserts (hosts mode). -/
theorem parse_hosts_section (ip : List RewriteRule) :
    ∀ (tail : List (List Char)) (fuel n : Nat) (acc : List RewriteRule),
    (∀ r ∈ ip, ValidRule r ∧ r.owner ≠ "" ∧ '\n' ∉ r.owner.data) →
    WFOwners (acc ++ ip) → ClashFree (acc ++ ip) →
    parseLines (ip.length + fuel) (ruleBlocks hostsRuleLines ip ++ tail) true n acc
      = parseLines fuel tail true (n + 4 * ip.length) (acc ++ ip) := by
  induction ip with
  | nil =>
    intro tail fuel n acc _ _ _
    simp [ruleBlocks]
  | cons r rest ih =>
    intro tail fuel n acc hval hwf hcf
    obtain ⟨hvr, hone, honl⟩ := hval r (List.mem_cons_self r rest)
    obtain ⟨hfne, hfch, htne, htch⟩ := ValidRule_parts hvr
    have hfnl : '\n' ∉ r.«from».data := fun hm => dnsChar_ne_newline (hfch _ hm) rfl
    have htnl : '\n' ∉ r.«to».data := fun hm => dnsChar_ne_newline (htch _ hm) rfl
    have hdisj : List.Disjoint (acc.map (fun t => t.owner))
        ((r :: rest).map (fun t => t.owner)) := by
      have hmapnd := hwf
      unfold WFOwners at hmapnd
      rw [List.map_append] at hmapnd
      exact List.disjoint_of_nodup_append hmapnd
    have howner : ∀ s ∈ acc, s.owner ≠ r.owner := fun s hs he =>
      hdisj (List.mem_map_of_mem _ hs) (he ▸ List.mem_map_of_mem _ (List.mem_cons_self r rest))
    have hclash : ∀ s ∈ acc, clashesWith s r = false := by
      intro s hs
      by_cases ho : s.owner = r.owner
      · simp [clashesWith, ho]
      · have hmf := hcf s (List.mem_append_left _ hs) r
          (List.mem_append_right _ (List.mem_cons_self r rest)) ho
        simp [clashesWith, hmf]
    have hfresh := AddRule_fresh hclash howner
    have hl4 : isHostsEntryLine ("  ".data ++ r.«to».data ++ ' ' :: r.«from».data) = true :=
      isHostsEntryLine_pair r.«to».data r.«from».data htne
        (fun c hc => dnsChar_not_space (htch c hc)) hfne
        (fun c hc => dnsChar_not_space (hfch c hc))
    rw [show ruleBlocks hostsRuleLines (r :: rest) ++ tail
        = ("  # owner: ".data ++ r.owner.data) :: ("  # from: ".data ++ r.«from».data)
          :: ("  # to: ".data ++ r.«to».data)
          :: ("  ".data ++ r.«to».data ++ ' ' :: r.«from».data)
          :: (ruleBlocks hostsRuleLines rest ++ tail) from by
      simp [ruleBlocks, hostsRuleLines]]
    rw [show (r :: rest).length + fuel = (rest.length + fuel) + 1 from by
      simp only [List.length_cons]; omega]
    rw [parseLines_consT]
    rw [if_neg (fun hc => by cases hc.2)]
    rw [if_neg (fun hc => absurd hc.1 (ne_of_idx 2 '#' 't' rfl rfl (by decide)))]
    rw [matchOwnerLineH r.owner (data_of_ne_empty hone) honl]
    dsimp only [List.head?, List.drop]
    rw [matchFromLineH r.«from» hfne hfnl]
    dsimp only
    rw [matchToLineH r.«to» htne htnl]
    dsimp only
    rw [if_pos hl4]
    rw [show NewRewriteRule r.owner r.«from» r.«to» = Except.ok r from hvr]
    dsimp only
    rw [hfresh]
    dsimp only
    rw [ih tail fuel (n + 4) (acc ++ [r])
      (fun x hx => hval x (List.mem_cons_of_mem r hx))
      (by rw [List.append_assoc]; exact hwf)
      (by rw [List.append_assoc]; exact hcf)]
    rw [show (n + 4) + 4 * rest.length = n + 4 * (r :: rest).length from by
      simp only [List.length_cons]; omega]
    rw [show (acc ++ [r]) ++ rest = acc ++ r :: rest from by simp]

/-! ### Parsing a fully serialized rule set -/

/-- The serializer's output parses back to the ip-rules followed by the
name-rules, for any clash-free partition with distinct, nonempty,
newline-free owners. -/
theorem parse_serialized (ip nm : List RewriteRule)
    (hval : ∀ r ∈ ip ++ nm, ValidRule r ∧ r.owner ≠ "" ∧ '\n' ∉ r.owner.data)
    (hwf : WFOwners (ip ++ nm)) (hcf : ClashFree (ip ++ nm)) :
    parseLines
      (((if ip.isEmpty then [] else
          "hosts /dev/null \x7b".data :: ruleBlocks hostsRuleLines ip
            ++ ["  ttl 10".data, "  fallthrough".data, "\x7d".data])
        ++ ruleBlocks rewriteRuleLines nm).length)
      ((if ip.isEmpty then [] else
          "hosts /dev/null \x7b".data :: ruleBlocks hostsRuleLines ip
            ++ ["  ttl 10".data, "  fallthrough".data, "\x7d".data])
        ++ ruleBlocks rewriteRuleLines nm) false 1 []
      = .ok (ip ++ nm) := by
  cases ip with
  | nil =>
    rw [if_pos (show ([] : List RewriteRule).isEmpty = true from rfl), List.nil_append]
    rw [ruleBlocks_length rewriteRuleLines (fun r => rfl) nm]
    rw [show 4 * nm.length = nm.length + 3 * nm.length from by omega]
    rw [show ruleBlocks rewriteRuleLines nm
        = ruleBlocks rewriteRuleLines nm ++ ([] : List (List Char))
      from (List.append_nil _).symm]
    rw [parse_rewrite_section nm [] (3 * nm.length) 1 [] hval hwf hcf]
    rw [parseLines_nil]
  | cons r0 ip' =>
    rw [if_neg (show ¬(r0 :: ip').isEmpty = true by simp)]
    rw [show ("hosts /dev/null \x7b".data :: ruleBlocks hostsRuleLines (r0 :: ip')
          ++ ["  ttl 10".data, "  fallthrough".data, "\x7d".data])
        ++ ruleBlocks rewriteRuleLines nm
        = "hosts /dev/null \x7b".data :: (ruleBlocks hostsRuleLines (r0 :: ip')
          ++ ("  ttl 10".data :: "  fallthrough".data :: "\x7d".data
            :: ruleBlocks rewriteRuleLines nm)) from by simp]
    rw [List.length_cons]
    rw [parseLines_consF]
    rw [if_pos ⟨rfl, rfl⟩]
    rw [show (ruleBlocks hostsRuleLines (r0 :: ip')
        ++ ("  ttl 10".data :: "  fallthrough".data :: "\x7d".data
          :: ruleBlocks rewriteRuleLines nm)).length
        = (r0 :: ip').length + (3 * (r0 :: ip').length + 3 + 4 * nm.length) from by
      simp only [List.length_append, List.length_cons,
        ruleBlocks_length hostsRuleLines (fun r => rfl),
        ruleBlocks_length rewriteRuleLines (fun r => rfl)]
      omega]
    rw [parse_hosts_section (r0 :: ip')
      ("  ttl 10".data :: "  fallthrough".data :: "\x7d".data
        :: ruleBlocks rewriteRuleLines nm)
      (3 * (r0 :: ip').length + 3 + 4 * nm.length) (1 + 1) []
      (fun x hx => hval x (List.mem_append_left _ hx))
      (show WFOwners ([] ++ (r0 :: ip')) from by
        show WFOwners (r0 :: ip')
        unfold WFOwners at hwf ⊢
        rw [List.map_append] at hwf
        exact hwf.of_append_left)
      (fun s hs t ht hne =>
        hcf s (List.mem_append_left _ hs) t (List.mem_append_left _ ht) hne)]
    rw [List.nil_append]
    rw [show 3 * (r0 :: ip').length + 3 + 4 * nm.length
        = (3 * (r0 :: ip').length + 2 + 4 * nm.length) + 1 from by omega]
    rw [parseLines_consT]
    rw [if_neg (fun hc => by cases hc.2)]
    rw [if_pos ⟨rfl, rfl⟩]
    dsimp only [List.drop]
    rw [show 3 * (r0 :: ip').length + 2 + 4 * nm.length
        = nm.length + (3 * (r0 :: ip').length + 2 + 3 * nm.length) from by omega]
    rw [show ruleBlocks rewriteRuleLines nm
        = ruleBlocks rewriteRuleLines nm ++ ([] : List (List Char))
      from (List.append_nil _).symm]
    rw [parse_rewrite_section nm [] (3 * (r0 :: ip').length + 2 + 3 * nm.length)
      (1 + 1 + 4 * (r0 :: ip').length + 3) (r0 :: ip')
      (fun x hx => hval x (List.mem_append_right _ hx)) hwf hcf]
    rw [parseLines_nil]

/-- C3 (corrected): the round-trip contract of the artifact codec holds for
every rule set built purely via successful `AddRule` calls whose owners are
nonempty and contain no newline: `ParseRewriteRuleSet (RuleSetString S)`
succeeds, its result is the same set of (owner, from, to) triples (a
permutation of `S`), and re-serializing that result reproduces the string
character for character.  Without the owner restriction the claim fails: an
empty owner serializes to a `# owner: ` line whose nonempty capture group
rejects it (see the separate counterexample theorem). -/
theorem claim_C3_round_trip :
    ∀ S : List RewriteRule, Built S →
      (∀ r ∈ S, r.owner ≠ "" ∧ '\n' ∉ r.owner.data) →
      ∃ P, ParseRewriteRuleSet (RuleSetString S) = .ok P
        ∧ P.Perm S ∧ RuleSetString P = RuleSetString S := by
  intro S hB hown
  obtain ⟨hwf, hcf, hval⟩ := Built_invariant hB
  by_cases hSe : S = []
  · subst hSe
    exact ⟨[], rfl, List.Perm.refl _, rfl⟩
  · have hpart : ((sortByOwner S).filter (fun r => isIpAddress r.«to»)
        ++ (sortByOwner S).filter (fun r => !isIpAddress r.«to»)).Perm S :=
      (List.filter_append_perm _ _).trans (sortByOwner_perm S)
    have hwfP : WFOwners ((sortByOwner S).filter (fun r => isIpAddress r.«to»)
        ++ (sortByOwner S).filter (fun r => !isIpAddress r.«to»)) := by
      have h2 : (S.map (fun r => r.owner)).Nodup := hwf
      exact (List.Perm.nodup_iff (hpart.map (fun r => r.owner))).mpr h2
    have hcfP : ClashFree ((sortByOwner S).filter (fun r => isIpAddress r.«to»)
        ++ (sortByOwner S).filter (fun r => !isIpAddress r.«to»)) :=
      fun s hs t ht hne => hcf s (hpart.subset hs) t (hpart.subset ht) hne
    have hvalP : ∀ r ∈ (sortByOwner S).filter (fun r => isIpAddress r.«to»)
        ++ (sortByOwner S).filter (fun r => !isIpAddress r.«to»),
        ValidRule r ∧ r.owner ≠ "" ∧ '\n' ∉ r.owner.data :=
      fun r hr => ⟨hval r (hpart.subset hr), (hown r (hpart.subset hr)).1,
        (hown r (hpart.subset hr)).2⟩
    have hnlS : ∀ l ∈ serializeLines S, '\n' ∉ l := by
      rw [serializeLines_eq]
      intro l hl
      rcases List.mem_append.mp hl with h1 | h2
      · split at h1
        · exact absurd h1 (List.not_mem_nil l)
        · rcases List.mem_append.mp h1 with h3 | h4
          · rcases List.mem_cons.mp h3 with rfl | h5
            · decide
            · obtain ⟨r, hrmem, hlr⟩ := mem_ruleBlocks h5
              have hrS : r ∈ S := hpart.subset (List.mem_append_left _ hrmem)
              exact hostsRuleLines_no_newline (hval r hrS) (hown r hrS).2 l hlr
          · rcases List.mem_cons.mp h4 with rfl | h5
            · decide
            · rcases List.mem_cons.mp h5 with rfl | h6
              · decide
              · rcases List.mem_cons.mp h6 with rfl | h7
                · decide
                · exact absurd h7 (List.not_mem_nil l)
      · obtain ⟨r, hrmem, hlr⟩ := mem_ruleBlocks h2
        have hrS : r ∈ S := hpart.subset (List.mem_append_right _ hrmem)
        exact rewriteRuleLines_no_newline (hval r hrS) (hown r hrS).2 l hlr
    have hfirst : ∃ l0 rest0, serializeLines S = l0 :: rest0 ∧ l0 ≠ [] := by
      rw [serializeLines_eq]
      cases hip : (sortByOwner S).filter (fun r => isIpAddress r.«to») with
      | nil =>
        rw [if_pos (show ([] : List RewriteRule).isEmpty = true from rfl), List.nil_append]
        have hpart2 := hpart
        rw [hip, List.nil_append] at hpart2
        have hnm_ne : (sortByOwner S).filter (fun r => !isIpAddress r.«to») ≠ [] := by
          intro h
          rw [h] at hpart2
          exact hSe (List.perm_nil.mp hpart2.symm)
        obtain ⟨r1, nm', hnm⟩ := List.exists_cons_of_ne_nil hnm_ne
        rw [hnm]
        refine ⟨"# owner: ".data ++ r1.owner.data,
          ("# from: ".data ++ r1.«from».data) :: ("# to: ".data ++ r1.«to».data)
            :: rewriteDirective r1 :: ruleBlocks rewriteRuleLines nm', ?_, ?_⟩
        · simp [ruleBlocks, rewriteRuleLines]
        · intro he
          have h0 : ("# owner: ".data ++ r1.owner.data)[0]? = some '#' := rfl
          rw [he] at h0
          exact absurd h0 (by decide)
      | cons r0 ip' =>
        rw [if_neg (show ¬(r0 :: ip').isEmpty = true by simp)]
        exact ⟨"hosts /dev/null \x7b".data,
          (ruleBlocks hostsRuleLines (r0 :: ip')
            ++ ["  ttl 10".data, "  fallthrough".data, "\x7d".data])
            ++ ruleBlocks rewriteRuleLines
                ((sortByOwner S).filter (fun r => !isIpAddress r.«to»)),
          by simp, by decide⟩
    have hlines_ne : serializeLines S ≠ [] := by
      obtain ⟨l0, rest0, heq, -⟩ := hfirst
      rw [heq]
      exact List.cons_ne_nil _ _
    have hjoin_ne : joinWith '\n' (serializeLines S) ≠ [] := by
      obtain ⟨l0, rest0, heq, hl0⟩ := hfirst
      rw [heq]
      show l0 ++ joinTail '\n' rest0 ≠ []
      intro hc
      exact hl0 (List.append_eq_nil.mp hc).1
    have hstr_ne : RuleSetString S ≠ "" := fun he => hjoin_ne (congrArg String.data he)
    have hsplit : splitOnChar '\n' (RuleSetString S).data = serializeLines S :=
      splitOnChar_joinWith '\n' (serializeLines S) hlines_ne hnlS
    refine ⟨(sortByOwner S).filter (fun r => isIpAddress r.«to»)
        ++ (sortByOwner S).filter (fun r => !isIpAddress r.«to»), ?_, hpart, ?_⟩
    · unfold ParseRewriteRuleSet
      rw [if_neg hstr_ne, hsplit, serializeLines_eq]
      exact parse_serialized _ _ hvalP hwfP hcfP
    · have hsort : sortByOwner ((sortByOwner S).filter (fun r => isIpAddress r.«to»)
          ++ (sortByOwner S).filter (fun r => !isIpAddress r.«to»)) = sortByOwner S :=
        sortByOwner_eq_of_perm hpart hwfP
      unfold RuleSetString
      rw [serializeLines_eq, serializeLines_eq, hsort]

/-- Witness for C3: the round trip at a concrete one-rule set built by a
successful `AddRule` call. -/
theorem claim_C3_round_trip_witness :
    ∃ P, ParseRewriteRuleSet
        (RuleSetString [⟨"o1", "a.example.com", "b.example.com"⟩]) = .ok P
      ∧ P.Perm [⟨"o1", "a.example.com", "b.example.com"⟩]
      ∧ RuleSetString P = RuleSetString [⟨"o1", "a.example.com", "b.example.com"⟩] :=
  claim_C3_round_trip [⟨"o1", "a.example.com", "b.example.com"⟩]
    (show Built [⟨"o1", "a.example.com", "b.example.com"⟩] from
      Built.step Built.nil
        (show ValidRule ⟨"o1", "a.example.com", "b.example.com"⟩ from rfl) rfl)
    (by
      intro r hr
      rcases List.mem_cons.mp hr with rfl | h
      · exact ⟨by decide, by decide⟩
      · exact absurd h (List.not_mem_nil r))

/-- The unrestricted round-trip claim fails: the empty owner gives a rule
set built by a successful `AddRule` call on a validated rule whose
serialization the parser rejects at line 1 (the `# owner: ` line has an
empty capture). -/
theorem claim_C3_counterexample :
    ValidRule ⟨"", "a.example.com", "b.example.com"⟩
    ∧ (AddRule [] ⟨"", "a.example.com", "b.example.com"⟩).rules
        = [⟨"", "a.example.com", "b.example.com"⟩]
    ∧ (AddRule [] ⟨"", "a.example.com", "b.example.com"⟩).err = none
    ∧ Built [⟨"", "a.example.com", "b.example.com"⟩]
    ∧ ParseRewriteRuleSet (RuleSetString [⟨"", "a.example.com", "b.example.com"⟩])
        = .error (.parseAtLine 1) :=
  ⟨rfl, rfl, rfl,
    show Built [⟨"", "a.example.com", "b.example.com"⟩] from
      Built.step Built.nil
        (show ValidRule ⟨"", "a.example.com", "b.example.com"⟩ from rfl) rfl,
    rfl⟩

/-- C4: the serializer renders, bit-exactly, the IP-literal rules first
(owner ascending) inside the `hosts /dev/null { … ttl 10 / fallthrough / }`
block — omitted when no IP-literal rule exists — each as three comment lines
and a `<to> <from>` hosts entry, then the name-target rules (owner
ascending), each as three comment lines and a
`rewrite name exact <from> <to>` directive, or `rewrite name regex` with
`.` escaped to `\.` and the wildcard label to `.*`; in particular the
single-rule set (o1, a.example.com, 1.2.3.4) and the four-rule sample of
the repository's test suite serialize to the expected strings. -/
theorem claim_C4_serializer_shape :
    (∀ rs : List RewriteRule,
      RuleSetString rs = String.mk (joinWith '\n'
        ((if ((sortByOwner rs).filter (fun r => isIpAddress r.«to»)).isEmpty then [] else
          "hosts /dev/null \x7b".data
            :: ruleBlocks hostsRuleLines
                ((sortByOwner rs).filter (fun r => isIpAddress r.«to»))
            ++ ["  ttl 10".data, "  fallthrough".data, "\x7d".data])
        ++ ruleBlocks rewriteRuleLines
            ((sortByOwner rs).filter (fun r => !isIpAddress r.«to»))))
      ∧ (sortByOwner rs).Perm rs ∧ (sortByOwner rs).Pairwise ruleLe)
    ∧ (∀ r : RewriteRule, hostsRuleLines r
        = [ "  # owner: ".data ++ r.owner.data,
            "  # from: ".data ++ r.«from».data,
            "  # to: ".data ++ r.«to».data,
            "  ".data ++ r.«to».data ++ ' ' :: r.«from».data ]
      ∧ rewriteRuleLines r
        = [ "# owner: ".data ++ r.owner.data,
            "# from: ".data ++ r.«from».data,
            "# to: ".data ++ r.«to».data,
            if isWildcardDnsName r.«from» then
              "rewrite name regex ".data ++ escapeWildcard r.«from».data
                ++ ' ' :: r.«to».data
            else
              "rewrite name exact ".data ++ r.«from».data ++ ' ' :: r.«to».data ])
    ∧ RuleSetString [⟨"o1", "a.example.com", "1.2.3.4"⟩]
      = "hosts /dev/null \x7b\n  # owner: o1\n  # from: a.example.com\n  # to: 1.2.3.4\n  1.2.3.4 a.example.com\n  ttl 10\n  fallthrough\n\x7d"
    ∧ RuleSetString [⟨"owner1", "from1.example.io", "to1.example.io"⟩,
        ⟨"owner2", "from2.example.io", "to2.example.io"⟩,
        ⟨"owner3", "*.other.io", "to3.example.io"⟩,
        ⟨"owner4", "from4.example.io", "1.2.3.4"⟩]
      = "hosts /dev/null \x7b\n  # owner: owner4\n  # from: from4.example.io\n  # to: 1.2.3.4\n  1.2.3.4 from4.example.io\n  ttl 10\n  fallthrough\n\x7d\n# owner: owner1\n# from: from1.example.io\n# to: to1.example.io\nrewrite name exact from1.example.io to1.example.io\n# owner: owner2\n# from: from2.example.io\n# to: to2.example.io\nrewrite name exact from2.example.io to2.example.io\n# owner: owner3\n# from: *.other.io\n# to: to3.example.io\nrewrite name regex .*\\.other\\.io to3.example.io" :=
  ⟨fun rs => ⟨rfl, sortByOwner_perm rs, sortByOwner_sorted rs⟩,
   fun r => ⟨rfl, by unfold rewriteRuleLines rewriteDirective; split <;> rfl⟩,
   rfl, rfl⟩

end DnsMasq
